import Mathlib

/-!
Shallow embedding of the topic hierarchy / versioning core of the
`pm-take-home` repository (TypeScript), together with proofs about it.

The embedding mirrors the source files:
* `src/models/Topic.ts` (class `Topic`, `BaseEntity`)
* `src/database/JsonDatabase.ts` (in-memory `Map` keyed by entity id,
  insertion-ordered; modelled as a `List Topic` with the map operations)
* `src/repositories/BaseRepository.ts` and `TopicRepository.ts`
* `src/services/TopicService.ts`
* `src/services/strategies/*` (role strategies and factory)
* `src/services/SecureTopicService.ts`

Conventions of the embedding:
* `Promise`/`async` disappears: every operation is a pure function.
* Methods that can `throw` return `Except Err _`; mutating operations return
  the post-state of the store as well, so "the store is unchanged" is a
  provable statement.
* Fresh UUIDs (`BaseEntity`: `id || uuidv4()`) and `new Date()` become
  explicit `freshId`/`now` parameters at the call sites that generate them.
* JS `x || y` on an optional string is modelled as `Option.getD`; the extra
  JS corner where a present-but-empty string counts as absent cannot arise
  for ids because `BaseEntity` replaces empty ids by generated UUIDs.
-/

namespace PM

/-- `src/enums/UserRole.ts`: the closed role enum. -/
inductive UserRole where
  | admin
  | editor
  | viewer
deriving DecidableEq, Repr

/-- `src/interfaces/IUser.ts` restricted to the fields the core reads. -/
structure User where
  id : String
  name : String
  role : UserRole
deriving DecidableEq, Repr

/-- `src/models/Topic.ts`: one immutable topic version record.
`createdAt`/`updatedAt` are abstract instants (`Nat`). -/
structure Topic where
  id : String
  name : String
  content : String
  version : Nat
  parentTopicId : Option String
  createdAt : Nat
  updatedAt : Nat
  previousVersionId : Option String
  rootTopicId : String
deriving DecidableEq, Repr

/-- The errors the core can throw, one constructor per `throw new Error(...)`
site reachable in the embedded code. -/
inductive Err where
  | validationFailed
  | entityAlreadyExists (id : String)
  | entityIdMismatch
  | parentTopicNotFound (id : String)
  | cannotDeleteTopicWithChildren
  | permissionDenied
deriving DecidableEq, Repr

/-- The `JsonDatabase` in-memory state: a JS `Map` keyed by `id`, which is
insertion-ordered, modelled as the ordered list of its values. -/
abbrev Store := List Topic

/-- `Topic`'s constructor for a brand-new version-1 record
(`new Topic(name, content)` with generated id): `version = 1`, no parent,
no previous version, `rootTopicId = own id`. -/
def Topic.fresh (name content : String) (freshId : String) (now : Nat) : Topic :=
  { id := freshId, name := name, content := content, version := 1,
    parentTopicId := none, createdAt := now, updatedAt := now,
    previousVersionId := none, rootTopicId := freshId }

/-- `Topic.createNewVersion` (`src/models/Topic.ts`): derives the next
version. The source passes `this.id` as the new record's id ("Keep the same
ID for version continuity"), `this.id` as `previousVersionId`, keeps
`createdAt` and `rootTopicId`, and takes `newName || this.name` — the `||`
is a JS falsy check, so an absent *or empty* `newName` falls back to the
prior name. -/
def Topic.createNewVersion (t : Topic) (newContent : String)
    (newName : Option String) (now : Nat) : Topic :=
  { id := t.id,
    name := match newName with
      | some n => if n = "" then t.name else n
      | none => t.name,
    content := newContent,
    version := t.version + 1, parentTopicId := t.parentTopicId,
    createdAt := t.createdAt, updatedAt := now,
    previousVersionId := some t.id, rootTopicId := t.rootTopicId }

/-- `Topic.createChildTopic`: a fresh version-1 record whose parent is this
topic; the generated id becomes its own `rootTopicId`. -/
def Topic.createChildTopic (t : Topic) (name content : String)
    (freshId : String) (now : Nat) : Topic :=
  { id := freshId, name := name, content := content, version := 1,
    parentTopicId := some t.id, createdAt := now, updatedAt := now,
    previousVersionId := none, rootTopicId := freshId }

/-- `str.trim().length === 0`: every character is whitespace. -/
def isBlank (str : String) : Bool := str.toList.all Char.isWhitespace

/-- `Topic.validate`: throws unless name and content are non-empty after
trimming and `version ≥ 1`. -/
def Topic.validateOk (t : Topic) : Bool :=
  !(isBlank t.name) && !(isBlank t.content) && decide (1 ≤ t.version)

namespace JsonDatabase

/-- `JsonDatabase.findById`: `Map.get`. -/
def findById (s : Store) (id : String) : Option Topic :=
  s.find? (fun t => t.id == id)

/-- `JsonDatabase.findAll`: the map's values in insertion order. -/
def findAll (s : Store) : List Topic := s

/-- `JsonDatabase.query`. -/
def query (s : Store) (p : Topic → Bool) : List Topic := s.filter p

/-- `JsonDatabase.create`: throws if the id is already present, else appends
(`Map.set` of a fresh key). -/
def create (s : Store) (t : Topic) : Store × Except Err Topic :=
  if s.any (fun u => u.id == t.id) then (s, .error (.entityAlreadyExists t.id))
  else (s ++ [t], .ok t)

/-- `JsonDatabase.update`: `null` when the id is absent; throws when the
entity's id differs from the key; else replaces in place (`Map.set` of an
existing key keeps its position). -/
def update (s : Store) (id : String) (t : Topic) :
    Store × Except Err (Option Topic) :=
  if s.any (fun u => u.id == id) then
    if t.id == id then
      (s.map (fun u => if u.id == id then t else u), .ok (some t))
    else (s, .error .entityIdMismatch)
  else (s, .ok none)

/-- `JsonDatabase.delete`: `false` when absent, else removes the entry. -/
def delete (s : Store) (id : String) : Store × Bool :=
  if s.any (fun u => u.id == id) then
    (s.filter (fun u => !(u.id == id)), true)
  else (s, false)

end JsonDatabase

namespace BaseRepository

/-- `BaseRepository.create`: validates, then `database.create`. -/
def create (s : Store) (t : Topic) : Store × Except Err Topic :=
  if t.validateOk then JsonDatabase.create s t
  else (s, .error .validationFailed)

/-- `BaseRepository.update`: validates, then `database.update`. -/
def update (s : Store) (id : String) (t : Topic) :
    Store × Except Err (Option Topic) :=
  if t.validateOk then JsonDatabase.update s id t
  else (s, .error .validationFailed)

end BaseRepository

namespace TopicRepository

/-- `TopicRepository.findByParentId`. -/
def findByParentId (s : Store) (parentTopicId : String) : List Topic :=
  JsonDatabase.query s (fun t => t.parentTopicId == some parentTopicId)

/-- `TopicRepository.findRootTopics` (`!topic.parentTopicId`). -/
def findRootTopics (s : Store) : List Topic :=
  JsonDatabase.query s (fun t => t.parentTopicId == none)

/-- `TopicRepository.createNewVersion`: look the topic up, derive the next
version, and persist it with `create`. -/
def createNewVersion (s : Store) (id newContent : String)
    (newName : Option String) (now : Nat) : Store × Except Err (Option Topic) :=
  match JsonDatabase.findById s id with
  | none => (s, .ok none)
  | some topic =>
    let newVersion := topic.createNewVersion newContent newName now
    match BaseRepository.create s newVersion with
    | (s', .ok _) => (s', .ok (some newVersion))
    | (s', .error e) => (s', .error e)

/-- `TopicRepository.findAllVersions`. -/
def findAllVersions (s : Store) (rootTopicId : String) : List Topic :=
  JsonDatabase.query s (fun t => t.rootTopicId == rootTopicId)

/-- `TopicRepository.findVersion`. -/
def findVersion (s : Store) (rootTopicId : String) (version : Nat) :
    Option Topic :=
  (findAllVersions s rootTopicId).find? (fun t => t.version == version)

/-- Insertion step of sorting by `version` descending
(`versions.sort((a, b) => b.version - a.version)`). -/
def insertByVersionDesc (t : Topic) : List Topic → List Topic
  | [] => [t]
  | u :: us =>
    if u.version ≤ t.version then t :: u :: us
    else u :: insertByVersionDesc t us

/-- Sort by `version` descending. -/
def sortByVersionDesc (l : List Topic) : List Topic :=
  l.foldr insertByVersionDesc []

/-- `TopicRepository.findLatestVersion`: `null` on an empty version set,
else the head of the versions sorted by `version` descending. -/
def findLatestVersion (s : Store) (rootTopicId : String) : Option Topic :=
  match findAllVersions s rootTopicId with
  | [] => none
  | l => (sortByVersionDesc l).head?

/-- `TopicRepository.createChildTopic`: `null` when the parent is absent,
else derive the child and persist it. -/
def createChildTopic (s : Store) (parentId name content : String)
    (freshId : String) (now : Nat) : Store × Except Err (Option Topic) :=
  match JsonDatabase.findById s parentId with
  | none => (s, .ok none)
  | some parentTopic =>
    let childTopic := parentTopic.createChildTopic name content freshId now
    match BaseRepository.create s childTopic with
    | (s', .ok c) => (s', .ok (some c))
    | (s', .error e) => (s', .error e)

/-- `TopicRepository.findChildrenRecursive`, fuel-indexed: for each direct
child, push it and recurse into it (depth-first preorder).  The source
recursion has no fuel; the callers below pass fuel exceeding every possible
descendant-chain length in an acyclic store, where the results coincide. -/
def findChildrenRec (s : Store) : Nat → String → List Topic
  | 0, _ => []
  | fuel + 1, topicId =>
    (findByParentId s topicId).flatMap
      (fun child => child :: findChildrenRec s fuel child.id)

/-- `TopicRepository.findAllChildrenRecursive`. -/
def findAllChildrenRecursive (s : Store) (topicId : String) : List Topic :=
  findChildrenRec s (s.length + 1) topicId

end TopicRepository

/-! The adjacency `Map<string, string[]>` built by `TopicRepository.findPath`
and the breadth-first search over it (`findShortestPath`,
`reconstructPath`).  The JS `Map` is insertion-ordered, modelled as an
ordered association list. -/

/-- The graph: insertion-ordered association list from node id to the
adjacency array. -/
abbrev Graph := List (String × List String)

namespace Graph

/-- `graph.has(k)`. -/
def hasNode (g : Graph) (k : String) : Bool := g.any (fun p => p.1 == k)

/-- `graph.get(k)` with the `?? []` the BFS applies (`graph.get(id) || []`);
an absent key yields the empty adjacency. -/
def adj (g : Graph) (k : String) : List String :=
  match g.find? (fun p => p.1 == k) with
  | some p => p.2
  | none => []

/-- `if (!graph.has(k)) graph.set(k, [])`. -/
def ensure (g : Graph) (k : String) : Graph :=
  if hasNode g k then g else g ++ [(k, [])]

/-- `graph.get(k)?.push(v)`: appends to the adjacency array when the key is
present, otherwise does nothing. -/
def push (g : Graph) (k v : String) : Graph :=
  g.map (fun p => if p.1 == k then (p.1, p.2 ++ [v]) else p)

end Graph

namespace TopicRepository

/-- One iteration of the graph-building loop in `TopicRepository.findPath`:
ensure the topic's node; when it has a parent, ensure the parent's node and
add both directed edges (parent → child and child → parent). -/
def buildGraphStep (g : Graph) (t : Topic) : Graph :=
  let g := Graph.ensure g t.id
  match t.parentTopicId with
  | none => g
  | some p =>
    let g := Graph.ensure g p
    let g := Graph.push g p t.id
    Graph.push g t.id p

/-- The adjacency map built from `findAll()`. -/
def buildGraph (s : Store) : Graph := s.foldl buildGraphStep []

/-- The BFS `visited` map: insertion-ordered association from node id to its
predecessor (`null` for the start node). -/
abbrev Visited := List (String × Option String)

/-- `visited.has(k)`. -/
def vHas (v : Visited) (k : String) : Bool := v.any (fun p => p.1 == k)

/-- `visited.get(k)`. -/
def vGet (v : Visited) (k : String) : Option (Option String) :=
  (v.find? (fun p => p.1 == k)).map (fun p => p.2)

/-- The neighbor loop body of the BFS: a neighbor not yet in `visited` is
recorded with the current node as predecessor and appended to the queue. -/
def bfsVisitStep (current : String) (qv : List String × Visited)
    (n : String) : List String × Visited :=
  if vHas qv.2 n then qv else (qv.1 ++ [n], qv.2 ++ [(n, some current)])

/-- `TopicRepository.reconstructPath`, fuel-indexed: walk predecessors from
`endId` back to `startId`, prepending along the way; a missing or `null`
predecessor breaks the loop.  Called with fuel exceeding the length of every
predecessor chain in `visited`. -/
def reconPath (visited : Visited) (startId : String) :
    Nat → String → List String → List String
  | 0, _, path => path
  | fuel + 1, current, path =>
    if current == startId then path
    else
      match vGet visited current with
      | none => path
      | some none => path
      | some (some p) => reconPath visited startId fuel p (p :: path)

/-- `TopicRepository.findShortestPath`'s loop, fuel-indexed: pop the queue
head; if it is `endId`, reconstruct the path; otherwise visit its neighbors
and continue.  An empty queue means no path.  Callers pass fuel exceeding
the maximal number of iterations (each node is enqueued at most once). -/
def bfsLoop (g : Graph) (startId endId : String) :
    Nat → List String → Visited → Option (List String)
  | 0, _, _ => none
  | fuel + 1, queue, visited =>
    match queue with
    | [] => none
    | current :: rest =>
      if current == endId then
        some (reconPath visited startId (visited.length + 1) current [current])
      else
        let qv := (Graph.adj g current).foldl (bfsVisitStep current)
          (rest, visited)
        bfsLoop g startId endId fuel qv.1 qv.2

/-- `TopicRepository.findShortestPath`: BFS from `startId`, seeded with the
start node visited with a `null` predecessor. -/
def findShortestPath (g : Graph) (startId endId : String) :
    Option (List String) :=
  bfsLoop g startId endId (2 * g.length + 2) [startId] [(startId, none)]

/-- `TopicRepository.findPath`: `null` unless both endpoints exist; build
the undirected parent/child graph over all topics, run the BFS, and convert
the id path back to topics (ids without a matching topic are skipped). -/
def findPath (s : Store) (startTopicId endTopicId : String) :
    Option (List Topic) :=
  match JsonDatabase.findById s startTopicId,
      JsonDatabase.findById s endTopicId with
  | some _, some _ =>
    match findShortestPath (buildGraph s) startTopicId endTopicId with
    | none => none
    | some path =>
      some (path.filterMap (fun id => s.find? (fun t => t.id == id)))
  | _, _ => none

end TopicRepository

/-- `ITopicService.TopicTree`: a topic with its nested children. -/
inductive TopicTree where
  | node (topic : Topic) (children : List TopicTree)
deriving Repr

/-- The topic at the root of a tree node. -/
def TopicTree.topic : TopicTree → Topic
  | .node t _ => t

/-- The children of a tree node. -/
def TopicTree.children : TopicTree → List TopicTree
  | .node _ cs => cs

namespace TopicService

/-- `TopicService.createTopic`: with a parent id, fail when the parent is
absent and otherwise delegate to `createChildTopic`; without one, persist a
fresh version-1 record. -/
def createTopic (s : Store) (name content : String)
    (parentTopicId : Option String) (freshId : String) (now : Nat) :
    Store × Except Err (Option Topic) :=
  match parentTopicId with
  | some pid =>
    match JsonDatabase.findById s pid with
    | none => (s, .error (.parentTopicNotFound pid))
    | some _ => TopicRepository.createChildTopic s pid name content freshId now
  | none =>
    match BaseRepository.create s (Topic.fresh name content freshId now) with
    | (s', .ok t) => (s', .ok (some t))
    | (s', .error e) => (s', .error e)

/-- `TopicService.getTopic`. -/
def getTopic (s : Store) (id : String) : Option Topic :=
  JsonDatabase.findById s id

/-- `TopicService.updateTopic`: delegates to
`TopicRepository.createNewVersion`. -/
def updateTopic (s : Store) (id content : String) (name : Option String)
    (now : Nat) : Store × Except Err (Option Topic) :=
  TopicRepository.createNewVersion s id content name now

/-- `TopicService.deleteTopic`: throws when the topic has children, else
delegates to the repository delete. -/
def deleteTopic (s : Store) (id : String) : Store × Except Err Bool :=
  if 0 < (TopicRepository.findByParentId s id).length then
    (s, .error .cannotDeleteTopicWithChildren)
  else
    let r := JsonDatabase.delete s id
    (r.1, .ok r.2)

/-- `TopicService.getAllTopics`. -/
def getAllTopics (s : Store) : List Topic := JsonDatabase.findAll s

/-- `TopicService.getRootTopics`. -/
def getRootTopics (s : Store) : List Topic := TopicRepository.findRootTopics s

/-- `TopicService.getChildTopics`. -/
def getChildTopics (s : Store) (parentId : String) : List Topic :=
  TopicRepository.findByParentId s parentId

/-- `TopicService.getTopicVersion`. -/
def getTopicVersion (s : Store) (rootTopicId : String) (version : Nat) :
    Option Topic :=
  TopicRepository.findVersion s rootTopicId version

/-- `TopicService.getAllTopicVersions`. -/
def getAllTopicVersions (s : Store) (rootTopicId : String) : List Topic :=
  TopicRepository.findAllVersions s rootTopicId

/-- `TopicService.getLatestTopicVersion`. -/
def getLatestTopicVersion (s : Store) (rootTopicId : String) : Option Topic :=
  TopicRepository.findLatestVersion s rootTopicId

/-- `TopicService.buildTopicTree`, fuel-indexed: the node's children are the
trees of its direct children.  The source recursion has no fuel; callers
pass fuel exceeding every descendant-chain length of an acyclic store. -/
def buildTopicTree (s : Store) : Nat → Topic → TopicTree
  | 0, t => .node t []
  | fuel + 1, t =>
    .node t ((TopicRepository.findByParentId s t.id).map (buildTopicTree s fuel))

/-- `TopicService.getTopicTree`: `null` when the topic is absent, else the
recursively built tree. -/
def getTopicTree (s : Store) (topicId : String) : Option TopicTree :=
  (JsonDatabase.findById s topicId).map (buildTopicTree s (s.length + 1))

/-- `TopicService.findPath`: delegates to the repository. -/
def findPath (s : Store) (startTopicId endTopicId : String) :
    Option (List Topic) :=
  TopicRepository.findPath s startTopicId endTopicId

end TopicService

/-! Access-control strategies (`src/services/strategies/*`).  Each strategy
is a record of the four decision functions of `ITopicAccessStrategy`; the
implementations ignore the topic argument exactly where the source methods
drop the parameter. -/

/-- `ITopicAccessStrategy` as a record of decision functions. -/
structure AccessStrategy where
  canCreateTopic : User → Option String → Bool
  canReadTopic : User → Topic → Bool
  canUpdateTopic : User → Topic → Bool
  canDeleteTopic : User → Topic → Bool

/-- `AdminTopicAccessStrategy`: every decision is `user.role === ADMIN`. -/
def AdminTopicAccessStrategy : AccessStrategy where
  canCreateTopic u _ := u.role == .admin
  canReadTopic u _ := u.role == .admin
  canUpdateTopic u _ := u.role == .admin
  canDeleteTopic u _ := u.role == .admin

/-- `EditorTopicAccessStrategy`: create/read/update are
`user.role === EDITOR`; delete is always `false`. -/
def EditorTopicAccessStrategy : AccessStrategy where
  canCreateTopic u _ := u.role == .editor
  canReadTopic u _ := u.role == .editor
  canUpdateTopic u _ := u.role == .editor
  canDeleteTopic _ _ := false

/-- `ViewerTopicAccessStrategy`: read is `user.role === VIEWER`; the other
three are always `false`. -/
def ViewerTopicAccessStrategy : AccessStrategy where
  canCreateTopic _ _ := false
  canReadTopic u _ := u.role == .viewer
  canUpdateTopic _ _ := false
  canDeleteTopic _ _ := false

/-- `TopicAccessStrategyFactory.getStrategy`: the strategy keyed by the
user's role.  The factory's map contains all three roles of the closed
enum, so its "no strategy found" throw is unreachable and the lookup is a
total match. -/
def TopicAccessStrategyFactory.getStrategy (u : User) : AccessStrategy :=
  match u.role with
  | .admin => AdminTopicAccessStrategy
  | .editor => EditorTopicAccessStrategy
  | .viewer => ViewerTopicAccessStrategy

namespace SecureTopicService

open TopicAccessStrategyFactory

/-- `SecureTopicService.createTopic`: check `canCreateTopic` first; on
denial throw and perform no mutation, else delegate. -/
def createTopic (s : Store) (u : User) (name content : String)
    (parentTopicId : Option String) (freshId : String) (now : Nat) :
    Store × Except Err (Option Topic) :=
  if (getStrategy u).canCreateTopic u parentTopicId then
    TopicService.createTopic s name content parentTopicId freshId now
  else (s, .error .permissionDenied)

/-- `SecureTopicService.getTopic`: absent stays absent; a fetched topic the
user cannot read throws. -/
def getTopic (s : Store) (u : User) (id : String) :
    Except Err (Option Topic) :=
  match TopicService.getTopic s id with
  | none => .ok none
  | some topic =>
    if (getStrategy u).canReadTopic u topic then .ok (some topic)
    else .error .permissionDenied

/-- `SecureTopicService.updateTopic`: fetch the target (absent → `null`, no
check), check `canUpdateTopic` against the fetched record, then delegate. -/
def updateTopic (s : Store) (u : User) (id content : String)
    (name : Option String) (now : Nat) : Store × Except Err (Option Topic) :=
  match TopicService.getTopic s id with
  | none => (s, .ok none)
  | some topic =>
    if (getStrategy u).canUpdateTopic u topic then
      TopicService.updateTopic s id content name now
    else (s, .error .permissionDenied)

/-- `SecureTopicService.deleteTopic`: fetch the target (absent → `false`,
no check), check `canDeleteTopic` against the fetched record, then
delegate. -/
def deleteTopic (s : Store) (u : User) (id : String) :
    Store × Except Err Bool :=
  match TopicService.getTopic s id with
  | none => (s, .ok false)
  | some topic =>
    if (getStrategy u).canDeleteTopic u topic then
      TopicService.deleteTopic s id
    else (s, .error .permissionDenied)

/-- `SecureTopicService.getAllTopics`: fetch all, filter by `canReadTopic`. -/
def getAllTopics (s : Store) (u : User) : List Topic :=
  (TopicService.getAllTopics s).filter ((getStrategy u).canReadTopic u)

/-- `SecureTopicService.getRootTopics`. -/
def getRootTopics (s : Store) (u : User) : List Topic :=
  (TopicService.getRootTopics s).filter ((getStrategy u).canReadTopic u)

/-- The body of `SecureTopicService.getChildTopics` with the dispatched
strategy explicit: fetch the parent (absent → throw "Parent topic not
found"), throw `PermissionDenied` when the caller cannot read the parent,
else fetch the children and filter them by `canReadTopic`. -/
def getChildTopicsWith (st : AccessStrategy) (s : Store) (u : User)
    (parentId : String) : Except Err (List Topic) :=
  match TopicService.getTopic s parentId with
  | none => .error (.parentTopicNotFound parentId)
  | some parentTopic =>
    if st.canReadTopic u parentTopic then
      .ok ((TopicService.getChildTopics s parentId).filter (st.canReadTopic u))
    else .error .permissionDenied

/-- `SecureTopicService.getChildTopics`. -/
def getChildTopics (s : Store) (u : User) (parentId : String) :
    Except Err (List Topic) :=
  getChildTopicsWith (getStrategy u) s u parentId

/-- `SecureTopicService.getTopicVersion`. -/
def getTopicVersion (s : Store) (u : User) (rootTopicId : String)
    (version : Nat) : Except Err (Option Topic) :=
  match TopicService.getTopicVersion s rootTopicId version with
  | none => .ok none
  | some topic =>
    if (getStrategy u).canReadTopic u topic then .ok (some topic)
    else .error .permissionDenied

/-- `SecureTopicService.getAllTopicVersions`. -/
def getAllTopicVersions (s : Store) (u : User) (rootTopicId : String) :
    List Topic :=
  (TopicService.getAllTopicVersions s rootTopicId).filter
    ((getStrategy u).canReadTopic u)

/-- `SecureTopicService.getLatestTopicVersion`. -/
def getLatestTopicVersion (s : Store) (u : User) (rootTopicId : String) :
    Except Err (Option Topic) :=
  match TopicService.getLatestTopicVersion s rootTopicId with
  | none => .ok none
  | some topic =>
    if (getStrategy u).canReadTopic u topic then .ok (some topic)
    else .error .permissionDenied

/-- The body of `SecureTopicService.findPath` with the dispatched strategy
explicit: `null` unless both endpoints exist; throw `PermissionDenied`
unless the caller can read both endpoints; run the engine's `findPath` and
filter the resulting path by `canReadTopic`, silently dropping unreadable
intermediate topics. -/
def findPathWith (st : AccessStrategy) (s : Store) (u : User)
    (startTopicId endTopicId : String) : Except Err (Option (List Topic)) :=
  match TopicService.getTopic s startTopicId,
      TopicService.getTopic s endTopicId with
  | some startTopic, some endTopic =>
    if st.canReadTopic u startTopic && st.canReadTopic u endTopic then
      match TopicService.findPath s startTopicId endTopicId with
      | none => .ok none
      | some path => .ok (some (path.filter (st.canReadTopic u)))
    else .error .permissionDenied
  | _, _ => .ok none

/-- `SecureTopicService.findPath`. -/
def findPath (s : Store) (u : User) (startTopicId endTopicId : String) :
    Except Err (Option (List Topic)) :=
  findPathWith (getStrategy u) s u startTopicId endTopicId

end SecureTopicService

/-! ## Well-formedness of a store

The data-model invariants of the spec (§3), as executable predicates:
distinct record ids (guaranteed by the id-keyed `Map`), parent references
that resolve to stored records, and an acyclic hierarchy (witnessed by a
rank function that strictly shrinks from child to parent, e.g. the depth of
a record in the hierarchy). -/

/-- Record ids are pairwise distinct (the store is an id-keyed map). -/
abbrev idsNodup (s : Store) : Prop := (s.map Topic.id).Nodup

/-- Every present `parentTopicId` references a stored record. -/
def parentsExist (s : Store) : Bool :=
  s.all (fun t =>
    match t.parentTopicId with
    | none => true
    | some p => s.any (fun u => u.id == p))

/-- `f` ranks the hierarchy: a child's id ranks strictly above its parent's
id, so parent chains cannot cycle. -/
def RankedBy (s : Store) (f : String → Nat) : Bool :=
  s.all (fun t =>
    match t.parentTopicId with
    | none => true
    | some p => f p < f t.id)

theorem parentsExist_iff (s : Store) :
    parentsExist s = true ↔
      ∀ t ∈ s, ∀ p, t.parentTopicId = some p → ∃ u ∈ s, u.id = p := by
  simp only [parentsExist, List.all_eq_true]
  constructor
  · intro h t ht p hp
    have := h t ht
    rw [hp] at this
    simpa [List.any_eq_true] using this
  · intro h t ht
    cases hp : t.parentTopicId with
    | none => rfl
    | some p => simpa [List.any_eq_true] using h t ht p hp

theorem rankedBy_iff (s : Store) (f : String → Nat) :
    RankedBy s f = true ↔
      ∀ t ∈ s, ∀ p, t.parentTopicId = some p → f p < f t.id := by
  simp only [RankedBy, List.all_eq_true]
  constructor
  · intro h t ht p hp
    have := h t ht
    rw [hp] at this
    simpa using this
  · intro h t ht
    cases hp : t.parentTopicId with
    | none => rfl
    | some p => simpa using h t ht p hp

/-! ## Generic list lemmas used throughout -/

theorem find?_eq_some_mem {p : Topic → Bool} {l : List Topic} {t : Topic}
    (h : l.find? p = some t) : t ∈ l ∧ p t = true :=
  ⟨List.mem_of_find?_eq_some h, List.find?_some h⟩

theorem any_of_find?_eq_some {p : Topic → Bool} {l : List Topic} {t : Topic}
    (h : l.find? p = some t) : l.any p = true := by
  rcases find?_eq_some_mem h with ⟨hm, hp⟩
  exact List.any_eq_true.mpr ⟨t, hm, hp⟩

theorem filter_decide_const (l : List Topic) (c : Bool) (p : Topic → Bool)
    (hp : ∀ t, p t = c) : l.filter p = if c then l else [] := by
  induction l with
  | nil => cases c <;> simp
  | cons a l ih =>
    cases hc : c <;> simp_all [List.filter_cons]

/-! ## Fixtures: concrete records used by witnesses and counterexamples -/

/-- A root topic (version 1, no parent). -/
def topicT1 : Topic :=
  { id := "t1", name := "Root", content := "root content", version := 1,
    parentTopicId := none, createdAt := 0, updatedAt := 0,
    previousVersionId := none, rootTopicId := "t1" }

/-- A child of `topicT1`. -/
def topicT2 : Topic :=
  { id := "t2", name := "Child", content := "child content", version := 1,
    parentTopicId := some "t1", createdAt := 1, updatedAt := 1,
    previousVersionId := none, rootTopicId := "t2" }

/-- A child of `topicT2` (grandchild of `topicT1`). -/
def topicT3 : Topic :=
  { id := "t3", name := "Grandchild", content := "grandchild content",
    version := 1, parentTopicId := some "t2", createdAt := 2, updatedAt := 2,
    previousVersionId := none, rootTopicId := "t3" }

/-- A principal of the full-access role. -/
def adminUser : User := { id := "u1", name := "Alice", role := .admin }

/-- A principal of the contributor role. -/
def editorUser : User := { id := "u2", name := "Bob", role := .editor }

/-- A principal of the read-only role. -/
def viewerUser : User := { id := "u3", name := "Carol", role := .viewer }

/-! ## C1 — update persists the next version alongside the prior record -/

/-- C1: the spec states that `updateTopic` persists the derived next-version
record alongside the prior record, both remaining retrievable, and that the
operation does not fail on an existing topic.  On the code this is
impossible: `Topic.createNewVersion` gives the derived record the prior
record's own id ("Keep the same ID for version continuity") and
`TopicRepository.createNewVersion` persists it with `create`, which throws
"already exists" for any present id.  For every store, every stored topic
and every update whose derived record passes validation, `updateTopic`
throws `entityAlreadyExists` and leaves the store unchanged. -/
theorem claim_c1_update_always_throws (s : Store) (id content : String)
    (nm : Option String) (now : Nat) (t : Topic)
    (hfind : JsonDatabase.findById s id = some t)
    (hval : (t.createNewVersion content nm now).validateOk = true) :
    TopicService.updateTopic s id content nm now =
      (s, .error (.entityAlreadyExists id)) := by
  have hid : t.id = id := by
    have := (find?_eq_some_mem hfind).2
    simpa using this
  have hany : s.any (fun u => u.id == (t.createNewVersion content nm now).id)
      = true := by
    have : (t.createNewVersion content nm now).id = id := hid
    rw [this]
    exact any_of_find?_eq_some hfind
  simp only [TopicService.updateTopic, TopicRepository.createNewVersion, hfind,
    BaseRepository.create, hval, if_pos, JsonDatabase.create, hany, if_true]
  simp [Topic.createNewVersion, hid]

/-- C1 witness: evaluating the failing input — a store holding one topic,
updated by its own id. -/
theorem claim_c1_witness :
    TopicService.updateTopic [topicT1] "t1" "new content" none 5 =
      ([topicT1], .error (.entityAlreadyExists "t1")) :=
  claim_c1_update_always_throws [topicT1] "t1" "new content" none 5 topicT1
    (by decide) (by decide)

/-! ## C2 — denied mutations raise PermissionDenied and mutate nothing -/

/-- C2 as stated is false: the contributor (editor) role's strategy denies
delete for every input, yet `deleteTopic` on an id absent from the store
returns `false` without raising (the permission check is never reached). -/
theorem claim_c2_counterexample :
    (TopicAccessStrategyFactory.getStrategy editorUser).canDeleteTopic
        editorUser topicT1 = false ∧
    SecureTopicService.deleteTopic [] editorUser "t1" = ([], .ok false) :=
  ⟨rfl, rfl⟩

/-- C2 (amended): a denied `createTopic` always raises `PermissionDenied`
and leaves the store unchanged; denied `updateTopic`/`deleteTopic` raise
and leave the store unchanged whenever the target exists (an absent target
returns absent/`false` with no permission check); a read-only principal's
`createTopic` always raises; a contributor's `deleteTopic` on an existing
topic always raises; a full-access principal's delete of an existing
childless topic succeeds, removes exactly that record, and the topic is
absent from subsequent `getAllTopics`. -/
theorem claim_c2_denied_mutations :
    (∀ (s : Store) (u : User) (name content : String) (pid : Option String)
        (freshId : String) (now : Nat),
      (TopicAccessStrategyFactory.getStrategy u).canCreateTopic u pid = false →
      SecureTopicService.createTopic s u name content pid freshId now =
        (s, .error .permissionDenied)) ∧
    (∀ (s : Store) (u : User) (id content : String) (nm : Option String)
        (now : Nat) (t : Topic), TopicService.getTopic s id = some t →
      (TopicAccessStrategyFactory.getStrategy u).canUpdateTopic u t = false →
      SecureTopicService.updateTopic s u id content nm now =
        (s, .error .permissionDenied)) ∧
    (∀ (s : Store) (u : User) (id : String) (t : Topic),
      TopicService.getTopic s id = some t →
      (TopicAccessStrategyFactory.getStrategy u).canDeleteTopic u t = false →
      SecureTopicService.deleteTopic s u id = (s, .error .permissionDenied)) ∧
    (∀ (s : Store) (u : User) (name content : String) (pid : Option String)
        (freshId : String) (now : Nat), u.role = .viewer →
      SecureTopicService.createTopic s u name content pid freshId now =
        (s, .error .permissionDenied)) ∧
    (∀ (s : Store) (u : User) (id : String) (t : Topic), u.role = .editor →
      TopicService.getTopic s id = some t →
      SecureTopicService.deleteTopic s u id = (s, .error .permissionDenied)) ∧
    (∀ (s : Store) (u : User) (id : String) (t : Topic), u.role = .admin →
      TopicService.getTopic s id = some t →
      TopicRepository.findByParentId s id = [] →
      SecureTopicService.deleteTopic s u id =
        (s.filter (fun x => !(x.id == id)), .ok true) ∧
      ∀ x ∈ SecureTopicService.getAllTopics
          (s.filter (fun x => !(x.id == id))) u, x.id ≠ id) := by
  refine ⟨?_, ?_, ?_, ?_, ?_, ?_⟩
  · intro s u name content pid freshId now h
    simp [SecureTopicService.createTopic, h]
  · intro s u id content nm now t hget h
    simp [SecureTopicService.updateTopic, hget, h]
  · intro s u id t hget h
    simp [SecureTopicService.deleteTopic, hget, h]
  · intro s u name content pid freshId now hrole
    simp [SecureTopicService.createTopic, TopicAccessStrategyFactory.getStrategy,
      hrole, ViewerTopicAccessStrategy]
  · intro s u id t hrole hget
    simp [SecureTopicService.deleteTopic, hget,
      TopicAccessStrategyFactory.getStrategy, hrole, EditorTopicAccessStrategy]
  · intro s u id t hrole hget hchildless
    have hdel : SecureTopicService.deleteTopic s u id =
        (s.filter (fun x => !(x.id == id)), .ok true) := by
      have hany : s.any (fun x => x.id == id) = true :=
        any_of_find?_eq_some hget
      simp [SecureTopicService.deleteTopic, hget,
        TopicAccessStrategyFactory.getStrategy, hrole,
        AdminTopicAccessStrategy, TopicService.deleteTopic, hchildless,
        JsonDatabase.delete, hany]
    refine ⟨hdel, ?_⟩
    intro x hx
    have hx0 : x ∈ (s.filter (fun y => !(y.id == id))).filter
        ((TopicAccessStrategyFactory.getStrategy u).canReadTopic u) := hx
    have hx1 : x ∈ s.filter (fun y => !(y.id == id)) :=
      (List.mem_filter.mp hx0).1
    have hpred := (List.mem_filter.mp hx1).2
    intro heq
    simp [heq] at hpred

/-- C2 witness: the three role scenarios at a concrete one-topic store. -/
theorem claim_c2_witness :
    SecureTopicService.createTopic [topicT1] viewerUser "N" "c" none "f1" 9 =
      ([topicT1], .error .permissionDenied) ∧
    SecureTopicService.deleteTopic [topicT1] editorUser "t1" =
      ([topicT1], .error .permissionDenied) ∧
    SecureTopicService.deleteTopic [topicT1] adminUser "t1" = ([], .ok true) := by
  refine ⟨claim_c2_denied_mutations.2.2.2.1 [topicT1] viewerUser "N" "c" none
      "f1" 9 rfl,
    claim_c2_denied_mutations.2.2.2.2.1 [topicT1] editorUser "t1" topicT1 rfl
      rfl, ?_⟩
  have h := (claim_c2_denied_mutations.2.2.2.2.2 [topicT1] adminUser "t1"
    topicT1 rfl rfl rfl).1
  have he : [topicT1].filter (fun x => !(x.id == "t1")) = [] := rfl
  rw [he] at h
  exact h

/-! ## C7 — the role strategies' decision tables -/

/-- C7: every decision of the full-access strategy holds exactly for the
admin role; the contributor strategy's create/read/update hold exactly for
the editor role and its delete is constantly false; the read-only
strategy's read holds exactly for the viewer role and its other three
decisions are constantly false.  In particular no variant grants anything
to a principal of a different role. -/
theorem claim_c7_strategy_tables (u : User) (t : Topic) (pid : Option String) :
    (AdminTopicAccessStrategy.canCreateTopic u pid = true ↔ u.role = .admin) ∧
    (AdminTopicAccessStrategy.canReadTopic u t = true ↔ u.role = .admin) ∧
    (AdminTopicAccessStrategy.canUpdateTopic u t = true ↔ u.role = .admin) ∧
    (AdminTopicAccessStrategy.canDeleteTopic u t = true ↔ u.role = .admin) ∧
    (EditorTopicAccessStrategy.canCreateTopic u pid = true ↔
      u.role = .editor) ∧
    (EditorTopicAccessStrategy.canReadTopic u t = true ↔ u.role = .editor) ∧
    (EditorTopicAccessStrategy.canUpdateTopic u t = true ↔ u.role = .editor) ∧
    EditorTopicAccessStrategy.canDeleteTopic u t = false ∧
    (ViewerTopicAccessStrategy.canReadTopic u t = true ↔ u.role = .viewer) ∧
    ViewerTopicAccessStrategy.canCreateTopic u pid = false ∧
    ViewerTopicAccessStrategy.canUpdateTopic u t = false ∧
    ViewerTopicAccessStrategy.canDeleteTopic u t = false := by
  simp [AdminTopicAccessStrategy, EditorTopicAccessStrategy,
    ViewerTopicAccessStrategy]

/-! ## C10 — canRead ignores the topic; read-many results are all-or-nothing -/

/-- For every principal the dispatched strategy's read decision is a
constant in the topic argument. -/
theorem canRead_const (u : User) : ∃ c, ∀ t : Topic,
    (TopicAccessStrategyFactory.getStrategy u).canReadTopic u t = c := by
  refine ⟨true, fun t => ?_⟩
  cases h : u.role <;>
    simp [TopicAccessStrategyFactory.getStrategy, h,
      AdminTopicAccessStrategy, EditorTopicAccessStrategy,
      ViewerTopicAccessStrategy]

/-- C10: the read decision of every role strategy is independent of the
topic argument, so each read-many facade operation returns, for a fixed
principal, either the whole underlying result list unchanged or the empty
list. -/
theorem claim_c10_all_or_nothing :
    (∀ st ∈ [AdminTopicAccessStrategy, EditorTopicAccessStrategy,
        ViewerTopicAccessStrategy],
      ∀ (u : User) (t1 t2 : Topic),
        st.canReadTopic u t1 = st.canReadTopic u t2) ∧
    (∀ (s : Store) (u : User),
      (SecureTopicService.getAllTopics s u = TopicService.getAllTopics s ∨
        SecureTopicService.getAllTopics s u = []) ∧
      (SecureTopicService.getRootTopics s u = TopicService.getRootTopics s ∨
        SecureTopicService.getRootTopics s u = []) ∧
      (∀ root, SecureTopicService.getAllTopicVersions s u root =
          TopicService.getAllTopicVersions s root ∨
        SecureTopicService.getAllTopicVersions s u root = []) ∧
      (∀ pid l, SecureTopicService.getChildTopics s u pid = .ok l →
        l = TopicService.getChildTopics s pid ∨ l = [])) := by
  constructor
  · intro st hst u t1 t2
    fin_cases hst <;>
      simp [AdminTopicAccessStrategy, EditorTopicAccessStrategy,
        ViewerTopicAccessStrategy]
  · intro s u
    obtain ⟨c, hc⟩ := canRead_const u
    refine ⟨?_, ?_, ?_, ?_⟩
    · rw [SecureTopicService.getAllTopics, filter_decide_const _ c _ hc]
      cases c <;> simp
    · rw [SecureTopicService.getRootTopics, filter_decide_const _ c _ hc]
      cases c <;> simp
    · intro root
      rw [SecureTopicService.getAllTopicVersions,
        filter_decide_const _ c _ hc]
      cases c <;> simp
    · intro pid l h
      simp only [SecureTopicService.getChildTopics,
        SecureTopicService.getChildTopicsWith] at h
      cases hget : TopicService.getTopic s pid with
      | none => simp only [hget] at h; exact absurd h (by simp)
      | some parent =>
        simp only [hget] at h
        have hp := hc parent
        cases hcv : c with
        | true =>
          rw [hcv] at hp
          rw [hp, if_pos rfl, filter_decide_const _ c _ hc, hcv, if_pos rfl]
            at h
          exact Or.inl (Except.ok.inj h).symm
        | false =>
          rw [hcv] at hp
          rw [hp] at h
          simp at h

/-! ## C3 — delete semantics: not-found, domain conflict, removal -/

/-- C3: over stores whose parent references resolve (spec §3 invariant),
`deleteTopic` returns `false` when the id is absent; it throws the domain
error `cannotDeleteTopicWithChildren` — distinct from not-found — when some
stored record's `parentTopicId` equals the id, leaving the store unchanged;
otherwise it removes exactly the targeted record and returns `true`. -/
theorem claim_c3_delete_semantics (s : Store) (id : String)
    (hpe : parentsExist s = true) :
    (JsonDatabase.findById s id = none →
      TopicService.deleteTopic s id = (s, .ok false)) ∧
    ((∃ t ∈ s, t.parentTopicId = some id) →
      TopicService.deleteTopic s id =
        (s, .error .cannotDeleteTopicWithChildren)) ∧
    (∀ t, JsonDatabase.findById s id = some t →
      (∀ c ∈ s, c.parentTopicId ≠ some id) →
      TopicService.deleteTopic s id =
        (s.filter (fun u => !(u.id == id)), .ok true) ∧
      ∀ x, x ∈ s.filter (fun u => !(u.id == id)) ↔ x ∈ s ∧ x.id ≠ id) := by
  refine ⟨?_, ?_, ?_⟩
  · intro hnone
    have hnomem : ∀ x ∈ s, ¬(x.id == id) = true := by
      intro x hx
      exact List.find?_eq_none.mp hnone x hx
    have hnochild : TopicRepository.findByParentId s id = [] := by
      rw [TopicRepository.findByParentId, JsonDatabase.query,
        List.filter_eq_nil_iff]
      intro c hc hpc
      rcases (parentsExist_iff s).mp hpe c hc id (by simpa using hpc) with
        ⟨u, hu, huid⟩
      exact hnomem u hu (by simpa using huid)
    have hanyf : s.any (fun u => u.id == id) = false := by
      rw [Bool.eq_false_iff]
      intro hcontra
      rcases List.any_eq_true.mp hcontra with ⟨x, hx, hxid⟩
      exact hnomem x hx hxid
    simp [TopicService.deleteTopic, hnochild, JsonDatabase.delete, hanyf]
  · intro ⟨t, ht, hpt⟩
    have hmem : t ∈ TopicRepository.findByParentId s id := by
      rw [TopicRepository.findByParentId, JsonDatabase.query,
        List.mem_filter]
      exact ⟨ht, by simp [hpt]⟩
    have hlen : 0 < (TopicRepository.findByParentId s id).length :=
      List.length_pos.mpr (List.ne_nil_of_mem hmem)
    simp [TopicService.deleteTopic, hlen]
  · intro t hfind hnochildren
    have hnochild : TopicRepository.findByParentId s id = [] := by
      rw [TopicRepository.findByParentId, JsonDatabase.query,
        List.filter_eq_nil_iff]
      intro c hc hpc
      exact hnochildren c hc (by simpa using hpc)
    have hany : s.any (fun u => u.id == id) = true :=
      any_of_find?_eq_some hfind
    refine ⟨by simp [TopicService.deleteTopic, hnochild,
      JsonDatabase.delete, hany], ?_⟩
    intro x
    rw [List.mem_filter]
    simp

/-- C3 witness: the three outcomes on the concrete two-record store
`[topicT1, topicT2]` (`topicT2` is a child of `topicT1`). -/
theorem claim_c3_witness :
    TopicService.deleteTopic [topicT1, topicT2] "ghost" =
      ([topicT1, topicT2], .ok false) ∧
    TopicService.deleteTopic [topicT1, topicT2] "t1" =
      ([topicT1, topicT2], .error .cannotDeleteTopicWithChildren) ∧
    TopicService.deleteTopic [topicT1, topicT2] "t2" =
      ([topicT1], .ok true) := by
  have h1 := (claim_c3_delete_semantics [topicT1, topicT2] "ghost"
    (by decide)).1 (by decide)
  have h2 := (claim_c3_delete_semantics [topicT1, topicT2] "t1"
    (by decide)).2.1 ⟨topicT2, by decide, by decide⟩
  have h3 := ((claim_c3_delete_semantics [topicT1, topicT2] "t2"
    (by decide)).2.2 topicT2 (by decide) (by decide)).1
  have he : [topicT1, topicT2].filter (fun u => !(u.id == "t2")) =
      [topicT1] := by decide
  rw [he] at h3
  exact ⟨h1, h2, h3⟩

/-! ## C4 — version chains increment by one; latest is the maximal version -/

theorem insertByVersionDesc_perm (t : Topic) (l : List Topic) :
    (TopicRepository.insertByVersionDesc t l).Perm (t :: l) := by
  induction l with
  | nil => exact List.Perm.refl _
  | cons u us ih =>
    rw [TopicRepository.insertByVersionDesc]
    by_cases h : u.version ≤ t.version
    · rw [if_pos h]
    · rw [if_neg h]
      exact (List.Perm.cons u ih).trans (List.Perm.swap t u us)

theorem sortByVersionDesc_perm (l : List Topic) :
    (TopicRepository.sortByVersionDesc l).Perm l := by
  induction l with
  | nil => exact List.Perm.refl _
  | cons a l ih =>
    have : TopicRepository.sortByVersionDesc (a :: l) =
        TopicRepository.insertByVersionDesc a
          (TopicRepository.sortByVersionDesc l) := rfl
    rw [this]
    exact (insertByVersionDesc_perm a _).trans (List.Perm.cons a ih)

theorem sortByVersionDesc_head_max (l : List Topic) (hne : l ≠ []) :
    ∃ t, (TopicRepository.sortByVersionDesc l).head? = some t ∧ t ∈ l ∧
      ∀ u ∈ l, u.version ≤ t.version := by
  induction l with
  | nil => exact absurd rfl hne
  | cons a l ih =>
    cases l with
    | nil => exact ⟨a, rfl, List.mem_singleton.mpr rfl, by simp⟩
    | cons b m =>
      rcases ih (by simp) with ⟨t, hhead, htmem, hmax⟩
      have hsort : TopicRepository.sortByVersionDesc (a :: b :: m) =
          TopicRepository.insertByVersionDesc a
            (TopicRepository.sortByVersionDesc (b :: m)) := rfl
      rcases List.head?_eq_some_iff.mp hhead with ⟨rest, hrest⟩
      by_cases hv : t.version ≤ a.version
      · refine ⟨a, ?_, List.mem_cons_self a _, ?_⟩
        · rw [hsort, hrest, TopicRepository.insertByVersionDesc, if_pos hv]
          rfl
        · intro u hu
          rcases List.mem_cons.mp hu with h | h
          · rw [h]
          · exact le_trans (hmax u h) hv
      · refine ⟨t, ?_, List.mem_cons_of_mem a htmem, ?_⟩
        · rw [hsort, hrest, TopicRepository.insertByVersionDesc, if_neg hv]
          rfl
        · intro u hu
          rcases List.mem_cons.mp hu with h | h
          · rw [h]; omega
          · exact hmax u h

/-- C4 counterexample: the claim says a derived version carries the given
new name, but the source computes `newName || this.name` with a JS falsy
check, so the reachable input `newName = ""` keeps the prior name instead
of taking the given one: updating `topicT1` with new name `""` yields name
`"Root"`, not `""`. -/
theorem claim_c4_counterexample :
    (topicT1.createNewVersion "new content" (some "") 5).name = "Root" ∧
      ("Root" : String) ≠ "" := by
  constructor
  · rfl
  · decide

/-- C4 (amended): each derived version record has `version` exactly one
more than its predecessor, the predecessor's `rootTopicId`, and
`previousVersionId` equal to the predecessor's id (so every chain of
updates increments the version by 1 per link with an invariant root id); it
carries the predecessor's `name` when no new name is given *and also when
the given new name is the empty string* (the source's `newName ||
this.name` treats `""` as absent), and the given name otherwise; and for
every non-empty set of records sharing a `rootTopicId`,
`getLatestTopicVersion` returns a member whose version is maximal among
them. -/
theorem claim_c4_chain_and_latest :
    (∀ (t : Topic) (c : String) (nm : Option String) (now : Nat),
      (t.createNewVersion c nm now).version = t.version + 1 ∧
      (t.createNewVersion c nm now).rootTopicId = t.rootTopicId ∧
      (t.createNewVersion c nm now).previousVersionId = some t.id ∧
      (t.createNewVersion c none now).name = t.name ∧
      (t.createNewVersion c (some "") now).name = t.name ∧
      ∀ n, n ≠ "" → (t.createNewVersion c (some n) now).name = n) ∧
    (∀ (s : Store) (root : String),
      TopicRepository.findAllVersions s root ≠ [] →
      ∃ t, TopicService.getLatestTopicVersion s root = some t ∧
        t ∈ TopicRepository.findAllVersions s root ∧
        ∀ u ∈ TopicRepository.findAllVersions s root,
          u.version ≤ t.version) := by
  constructor
  · intro t c nm now
    refine ⟨rfl, rfl, rfl, rfl, ?_, ?_⟩
    · show (if ("" : String) = "" then t.name else "") = t.name
      rw [if_pos rfl]
    · intro n hn
      show (if n = "" then t.name else n) = n
      rw [if_neg hn]
  · intro s root hne
    rcases sortByVersionDesc_head_max _ hne with ⟨t, hhead, htmem, hmax⟩
    refine ⟨t, ?_, htmem, hmax⟩
    rw [TopicService.getLatestTopicVersion, TopicRepository.findLatestVersion]
    cases hv : TopicRepository.findAllVersions s root with
    | nil => exact absurd hv hne
    | cons b m => rw [hv] at hhead; exact hhead

/-! ## C6 — the topic tree: all descendants, exactly once, correctly linked

Auxiliary notions: `TopicTree.flatten` lists every topic in a nested tree;
`SubtreeAt tr sub` says `sub` is a node of `tr`; `Desc s a u` says `u` is a
strict descendant of `a` (from `u` the stored `parentTopicId` links lead
upward to `a`); `DescN s a n u` is the same through a chain of exactly `n`
links, decomposed at the ancestor side to match the recursion of
`buildTopicTree`. -/

/-- All topics of a nested tree, root first. -/
def TopicTree.flatten : TopicTree → List Topic
  | .node t cs => t :: (cs.attach.map (fun c => TopicTree.flatten c.1)).flatten
termination_by t => sizeOf t
decreasing_by
  cases c with
  | mk v hv => exact Nat.lt_of_lt_of_le (List.sizeOf_lt_of_mem hv) (by simp)

theorem TopicTree.flatten_node (t : Topic) (cs : List TopicTree) :
    (TopicTree.node t cs).flatten =
      t :: (cs.map TopicTree.flatten).flatten := by
  simp [TopicTree.flatten]

/-- `sub` is a node of the nested tree `tr`. -/
inductive SubtreeAt : TopicTree → TopicTree → Prop where
  | refl (tr : TopicTree) : SubtreeAt tr tr
  | child (tr c sub : TopicTree) : c ∈ tr.children → SubtreeAt c sub →
      SubtreeAt tr sub

/-- `u` is a strict descendant of `a` in `s`. -/
inductive Desc (s : Store) (a : Topic) : Topic → Prop where
  | child (u : Topic) : u ∈ s → u.parentTopicId = some a.id → Desc s a u
  | step (m u : Topic) : Desc s a m → u ∈ s → u.parentTopicId = some m.id →
      Desc s a u

/-- `u` is a descendant of `a` through exactly `n` stored parent links. -/
inductive DescN (s : Store) : Topic → Nat → Topic → Prop where
  | child (a u : Topic) : u ∈ s → u.parentTopicId = some a.id → DescN s a 1 u
  | step (a c u : Topic) (n : Nat) : c ∈ s → c.parentTopicId = some a.id →
      DescN s c n u → DescN s a (n + 1) u

theorem Desc.mem {s : Store} {a u : Topic} (h : Desc s a u) : u ∈ s := by
  cases h <;> assumption

theorem desc_of_child_desc {s : Store} {a c u : Topic} (hc : c ∈ s)
    (hpc : c.parentTopicId = some a.id) (h : Desc s c u) : Desc s a u := by
  induction h with
  | child v hv hpv => exact .step c v (.child c hc hpc) hv hpv
  | step m v _ hv hpv ih => exact .step m v ih hv hpv

theorem descN_desc {s : Store} {a u : Topic} {n : Nat} (h : DescN s a n u) :
    Desc s a u := by
  induction h with
  | child a u hu hp => exact .child u hu hp
  | step a c u n hc hp _ ih => exact desc_of_child_desc hc hp ih

theorem descN_extend {s : Store} {a m u : Topic} {n : Nat}
    (h : DescN s a n m) :
    u ∈ s → u.parentTopicId = some m.id → DescN s a (n + 1) u := by
  induction h with
  | child a v hv hpv =>
    intro hu hp
    exact .step a v u 1 hv hpv (.child v u hu hp)
  | step a c v k hc hpc _ ih =>
    intro hu hp
    exact .step a c u (k + 1) hc hpc (ih hu hp)

theorem desc_descN {s : Store} {a u : Topic} (h : Desc s a u) :
    ∃ n, DescN s a n u := by
  induction h with
  | child v hv hp => exact ⟨1, .child a v hv hp⟩
  | step m v _ hv hp ih =>
    rcases ih with ⟨n, hn⟩
    exact ⟨n + 1, descN_extend hn hv hp⟩

theorem descN_pos {s : Store} {a u : Topic} {n : Nat} (h : DescN s a n u) :
    1 ≤ n := by
  cases h <;> omega

/-- The chain of records a `DescN` derivation traverses, below its root. -/
theorem descN_chain {s : Store} {a u : Topic} {n : Nat} (h : DescN s a n u) :
    ∃ l : List Topic, l.length = n ∧ (∀ x ∈ l, x ∈ s) ∧
      l.getLast? = some u ∧
      List.Chain' (fun x y => y.parentTopicId = some x.id) (a :: l) := by
  induction h with
  | child a v hv hp =>
    exact ⟨[v], rfl, by simpa using hv, rfl, by simp [hp]⟩
  | step a c v k hc hpc hcv ih =>
    rcases ih with ⟨l, hlen, hmem, hlast, hchain⟩
    refine ⟨c :: l, by simp [hlen], ?_, ?_, List.chain'_cons.mpr ⟨hpc, hchain⟩⟩
    · intro x hx
      rcases List.mem_cons.mp hx with h | h
      · rw [h]; exact hc
      · exact hmem x h
    · have hk : 1 ≤ k := descN_pos hcv
      cases l with
      | nil => simp at hlen; omega
      | cons y ys => simpa using hlast

theorem desc_rank {s : Store} {f : String → Nat} (hr : RankedBy s f = true)
    {a u : Topic} (h : Desc s a u) : f a.id < f u.id := by
  have hrank := (rankedBy_iff s f).mp hr
  induction h with
  | child v hv hp => exact hrank v hv a.id hp
  | step m v _ hv hp ih => exact lt_trans ih (hrank v hv m.id hp)

theorem chain_rank {s : Store} {f : String → Nat}
    (hr : RankedBy s f = true) :
    ∀ (x : Topic) (l : List Topic), (∀ y ∈ l, y ∈ s) →
      List.Chain' (fun p q => q.parentTopicId = some p.id) (x :: l) →
      List.Chain' (fun p q => f p.id < f q.id) (x :: l) := by
  intro x l
  induction l generalizing x with
  | nil => intro _ _; simp
  | cons y ys ih =>
    intro hmem hch
    rcases List.chain'_cons.mp hch with ⟨hxy, hch'⟩
    refine List.chain'_cons.mpr
      ⟨?_, ih y (fun z hz => hmem z (List.mem_cons_of_mem _ hz)) hch'⟩
    exact (rankedBy_iff s f).mp hr y (hmem y (List.mem_cons_self _ _)) x.id hxy

/-- The length of a parent chain is at most the store size: ranks along the
chain strictly increase, so its records are pairwise distinct members. -/
theorem descN_le_length {s : Store} {f : String → Nat} {a u : Topic}
    {n : Nat} (hn : idsNodup s) (hr : RankedBy s f = true)
    (h : DescN s a n u) : n ≤ s.length := by
  rcases descN_chain h with ⟨l, hlen, hmem, _, hchain⟩
  have hrankchain := chain_rank hr a l hmem hchain
  haveI : IsTrans Topic (fun p q => f p.id < f q.id) :=
    ⟨fun _ _ _ h1 h2 => lt_trans h1 h2⟩
  have hpairall : (a :: l).Pairwise (fun p q => f p.id < f q.id) :=
    List.chain'_iff_pairwise.mp hrankchain
  have hpair : l.Pairwise (fun p q => f p.id < f q.id) :=
    List.Pairwise.of_cons hpairall
  have hnd : l.Nodup := hpair.imp (fun {p q} hlt heq => by
    rw [heq] at hlt; exact lt_irrefl _ hlt)
  have hcard : l.toFinset.card = l.length := List.toFinset_card_of_nodup hnd
  have hsub : l.toFinset ⊆ s.toFinset := fun x hx =>
    List.mem_toFinset.mpr (hmem x (List.mem_toFinset.mp hx))
  have h1 := Finset.card_le_card hsub
  have h2 := s.toFinset_card_le
  omega

/-- Two stored records with equal ids are equal, over a nodup-id store. -/
theorem id_inj {s : Store} (hn : idsNodup s) {x y : Topic} (hx : x ∈ s)
    (hy : y ∈ s) (h : x.id = y.id) : x = y :=
  List.inj_on_of_nodup_map hn hx hy h

/-- A child of `t` cannot be a strict descendant of a sibling. -/
theorem no_desc_between_siblings {s : Store} {f : String → Nat}
    (hn : idsNodup s) (hr : RankedBy s f = true) {t c1 c2 : Topic}
    (ht : t ∈ s) (hc1 : c1 ∈ s) (hp1 : c1.parentTopicId = some t.id)
    (hc2 : c2 ∈ s) (hp2 : c2.parentTopicId = some t.id)
    (h : Desc s c2 c1) : False := by
  have hrank := (rankedBy_iff s f).mp hr
  cases h with
  | child _ hmem hp =>
    have hid : c2.id = t.id := by
      rw [hp1] at hp
      exact (Option.some.inj hp).symm
    have ht2 : c2 = t := id_inj hn hc2 ht hid
    rw [ht2] at hp2
    have := hrank t ht t.id hp2
    omega
  | step m _ hdm hmem hp =>
    have hid : m.id = t.id := by
      rw [hp1] at hp
      exact (Option.some.inj hp).symm
    have hmt : m = t := id_inj hn hdm.mem ht hid
    rw [hmt] at hdm
    have h1 := desc_rank hr hdm
    have h2 := hrank c2 hc2 t.id hp2
    omega

/-- A common strict descendant forces two children of the same parent to be
the same child: the parent chain upward from the descendant is unique. -/
theorem desc_same_from_siblings {s : Store} {f : String → Nat}
    (hn : idsNodup s) (hr : RankedBy s f = true) {t c1 c2 : Topic}
    (ht : t ∈ s) (hc1 : c1 ∈ s) (hp1 : c1.parentTopicId = some t.id)
    (hc2 : c2 ∈ s) (hp2 : c2.parentTopicId = some t.id) :
    ∀ u, Desc s c1 u → Desc s c2 u → c1 = c2 := by
  intro u h1
  induction h1 with
  | child v hv hpv =>
    intro h2
    cases h2 with
    | child _ hv2 hpv2 =>
      refine id_inj hn hc1 hc2 ?_
      rw [hpv] at hpv2
      exact (Option.some.inj hpv2)
    | step m _ hdm hv2 hpv2 =>
      have hmc1 : m = c1 := by
        refine id_inj hn hdm.mem hc1 ?_
        rw [hpv] at hpv2
        exact (Option.some.inj hpv2).symm
      rw [hmc1] at hdm
      exact absurd hdm (no_desc_between_siblings hn hr ht hc1 hp1 hc2 hp2)
  | step m v hm hv hpv ih =>
    intro h2
    cases h2 with
    | child _ hv2 hpv2 =>
      have hmc2 : m = c2 := by
        refine id_inj hn hm.mem hc2 ?_
        rw [hpv] at hpv2
        exact (Option.some.inj hpv2)
      rw [hmc2] at hm
      exact absurd hm (no_desc_between_siblings hn hr ht hc2 hp2 hc1 hp1)
    | step m' _ hdm' hv2 hpv2 =>
      have hmm : m' = m := by
        refine id_inj hn hdm'.mem hm.mem ?_
        rw [hpv] at hpv2
        exact (Option.some.inj hpv2).symm
      rw [hmm] at hdm'
      exact ih hdm'

/-- The member sets of subtrees rooted at distinct siblings are disjoint. -/
theorem sibling_subtree_disjoint {s : Store} {f : String → Nat}
    (hn : idsNodup s) (hr : RankedBy s f = true) {t c1 c2 : Topic}
    (ht : t ∈ s) (hc1 : c1 ∈ s) (hp1 : c1.parentTopicId = some t.id)
    (hc2 : c2 ∈ s) (hp2 : c2.parentTopicId = some t.id) (hne : c1 ≠ c2)
    (u : Topic) (h1 : u = c1 ∨ Desc s c1 u) (h2 : u = c2 ∨ Desc s c2 u) :
    False := by
  rcases h1 with rfl | h1 <;> rcases h2 with rfl | h2
  · exact hne rfl
  · exact no_desc_between_siblings hn hr ht hc1 hp1 hc2 hp2 h2
  · exact no_desc_between_siblings hn hr ht hc2 hp2 hc1 hp1 h1
  · exact hne (desc_same_from_siblings hn hr ht hc1 hp1 hc2 hp2 u h1 h2)

theorem buildTopicTree_topic (s : Store) (fuel : Nat) (t : Topic) :
    (TopicService.buildTopicTree s fuel t).topic = t := by
  cases fuel <;> rfl

theorem mem_children_iff (s : Store) (t c : Topic) :
    c ∈ TopicRepository.findByParentId s t.id ↔
      c ∈ s ∧ c.parentTopicId = some t.id := by
  rw [TopicRepository.findByParentId, JsonDatabase.query, List.mem_filter]
  simp

/-- Membership in the flattened built tree is exactly "the root or a
descendant within the fuel bound". -/
theorem mem_flatten_build (s : Store) :
    ∀ (fuel : Nat) (t u : Topic),
      u ∈ (TopicService.buildTopicTree s fuel t).flatten ↔
        u = t ∨ ∃ n, n ≤ fuel ∧ DescN s t n u := by
  intro fuel
  induction fuel with
  | zero =>
    intro t u
    rw [TopicService.buildTopicTree, TopicTree.flatten_node]
    simp only [List.map_nil, List.flatten_nil, List.mem_singleton]
    constructor
    · exact Or.inl
    · rintro (h | ⟨n, hn, hd⟩)
      · exact h
      · have := descN_pos hd; omega
  | succ fuel ih =>
    intro t u
    rw [TopicService.buildTopicTree, TopicTree.flatten_node]
    rw [List.map_map, List.mem_cons, List.mem_flatten]
    constructor
    · rintro (rfl | ⟨L, hL, huL⟩)
      · exact Or.inl rfl
      · rcases List.mem_map.mp hL with ⟨c, hc, rfl⟩
        rcases (mem_children_iff s t c).mp hc with ⟨hcs, hcp⟩
        rcases (ih c u).mp huL with rfl | ⟨n, hn, hd⟩
        · exact Or.inr ⟨1, by omega, .child t u hcs hcp⟩
        · exact Or.inr ⟨n + 1, by omega, .step t c u n hcs hcp hd⟩
    · rintro (rfl | ⟨n, hn, hd⟩)
      · exact Or.inl rfl
      · cases hd with
        | child _ v hv hp =>
          refine Or.inr ⟨(TopicService.buildTopicTree s fuel u).flatten,
            List.mem_map.mpr ⟨u, (mem_children_iff s t u).mpr ⟨hv, hp⟩, rfl⟩,
            ?_⟩
          exact (ih u u).mpr (Or.inl rfl)
        | step _ c v k hc hp hd' =>
          refine Or.inr ⟨(TopicService.buildTopicTree s fuel c).flatten,
            List.mem_map.mpr ⟨c, (mem_children_iff s t c).mpr ⟨hc, hp⟩, rfl⟩,
            ?_⟩
          exact (ih c u).mpr (Or.inr ⟨k, by omega, hd'⟩)

/-- Membership restated through `Desc` once the fuel covers the store. -/
theorem mem_flatten_build_full {s : Store} {f : String → Nat}
    (hn : idsNodup s) (hr : RankedBy s f = true) (t u : Topic) :
    u ∈ (TopicService.buildTopicTree s (s.length + 1) t).flatten ↔
      u = t ∨ Desc s t u := by
  rw [mem_flatten_build]
  constructor
  · rintro (rfl | ⟨n, _, hd⟩)
    · exact Or.inl rfl
    · exact Or.inr (descN_desc hd)
  · rintro (rfl | hd)
    · exact Or.inl rfl
    · rcases desc_descN hd with ⟨n, hdn⟩
      exact Or.inr ⟨n, by have := descN_le_length hn hr hdn; omega, hdn⟩

theorem nodup_flatten_of_pairwise (L : List (List Topic))
    (hnd : ∀ l ∈ L, l.Nodup)
    (hdisj : L.Pairwise (fun l1 l2 => ∀ x, x ∈ l1 → x ∈ l2 → False)) :
    L.flatten.Nodup := by
  induction L with
  | nil => simp
  | cons l L ih =>
    rw [List.flatten_cons, List.nodup_append]
    refine ⟨hnd l (List.mem_cons_self _ _), ih
      (fun m hm => hnd m (List.mem_cons_of_mem _ hm))
      (List.Pairwise.of_cons hdisj), ?_⟩
    intro x hx hx'
    rcases List.mem_flatten.mp hx' with ⟨m, hm, hxm⟩
    exact (List.rel_of_pairwise_cons hdisj hm) x hx hxm

/-- Every topic occurs at most once in the flattened built tree. -/
theorem nodup_flatten_build {s : Store} {f : String → Nat} (hn : idsNodup s)
    (hr : RankedBy s f = true) :
    ∀ (fuel : Nat) (t : Topic), t ∈ s →
      (TopicService.buildTopicTree s fuel t).flatten.Nodup := by
  have hsnd : s.Nodup := List.Nodup.of_map _ hn
  have hrank := (rankedBy_iff s f).mp hr
  intro fuel
  induction fuel with
  | zero =>
    intro t ht
    rw [TopicService.buildTopicTree, TopicTree.flatten_node]
    simp
  | succ fuel ih =>
    intro t ht
    rw [TopicService.buildTopicTree, TopicTree.flatten_node, List.map_map]
    rw [List.nodup_cons]
    have hchildnd : (TopicRepository.findByParentId s t.id).Nodup :=
      List.Nodup.filter _ hsnd
    constructor
    · intro hmem
      rcases List.mem_flatten.mp hmem with ⟨L, hL, htL⟩
      rcases List.mem_map.mp hL with ⟨c, hc, rfl⟩
      rcases (mem_children_iff s t c).mp hc with ⟨hcs, hcp⟩
      rcases (mem_flatten_build s fuel c t).mp htL with rfl | ⟨n, _, hd⟩
      · have := hrank t ht t.id hcp
        omega
      · have h1 := desc_rank hr (descN_desc hd)
        have h2 := hrank c hcs t.id hcp
        omega
    · refine nodup_flatten_of_pairwise _ ?_ ?_
      · intro l hl
        rcases List.mem_map.mp hl with ⟨c, hc, rfl⟩
        exact ih c ((mem_children_iff s t c).mp hc).1
      · rw [List.pairwise_map]
        refine List.Pairwise.imp_of_mem ?_ hchildnd
        intro c1 c2 hc1m hc2m hne x hx1 hx2
        rcases (mem_children_iff s t c1).mp hc1m with ⟨hc1s, hc1p⟩
        rcases (mem_children_iff s t c2).mp hc2m with ⟨hc2s, hc2p⟩
        have h1 : x = c1 ∨ Desc s c1 x := by
          rcases (mem_flatten_build s fuel c1 x).mp hx1 with rfl | ⟨n, _, hd⟩
          · exact Or.inl rfl
          · exact Or.inr (descN_desc hd)
        have h2 : x = c2 ∨ Desc s c2 x := by
          rcases (mem_flatten_build s fuel c2 x).mp hx2 with rfl | ⟨n, _, hd⟩
          · exact Or.inl rfl
          · exact Or.inr (descN_desc hd)
        exact sibling_subtree_disjoint hn hr ht hc1s hc1p hc2s hc2p hne x h1
          h2

/-- Every node of a built tree is itself a built tree, rooted at the tree's
topic or at a descendant reached through exactly the consumed fuel. -/
theorem subtreeAt_build {s : Store} {tr sub : TopicTree}
    (h : SubtreeAt tr sub) :
    ∀ (fuel : Nat) (t : Topic), tr = TopicService.buildTopicTree s fuel t →
      ∃ d u, d ≤ fuel ∧
        sub = TopicService.buildTopicTree s (fuel - d) u ∧
        ((d = 0 ∧ u = t) ∨ DescN s t d u) := by
  induction h with
  | refl tr =>
    intro fuel t htr
    exact ⟨0, t, Nat.zero_le _, by simpa using htr, Or.inl ⟨rfl, rfl⟩⟩
  | child tr c sub hc _ ih =>
    intro fuel t htr
    cases fuel with
    | zero =>
      subst htr
      rw [TopicService.buildTopicTree] at hc
      simp [TopicTree.children] at hc
    | succ g =>
      subst htr
      rw [TopicService.buildTopicTree] at hc
      simp only [TopicTree.children] at hc
      rcases List.mem_map.mp hc with ⟨c0, hc0, rfl⟩
      rcases ih g c0 rfl with ⟨d, u, hd, hsub', hdu⟩
      refine ⟨d + 1, u, by omega, ?_, ?_⟩
      · simpa [Nat.succ_sub_succ] using hsub'
      · rcases (mem_children_iff s t c0).mp hc0 with ⟨hc0s, hc0p⟩
        rcases hdu with ⟨rfl, rfl⟩ | hdn
        · exact Or.inr (.child t u hc0s hc0p)
        · exact Or.inr (.step t c0 u d hc0s hc0p hdn)

/-- With fuel `s.length + 1`, every node of the built tree carries exactly
its topic's direct store children. -/
theorem subtree_children_eq {s : Store} {f : String → Nat}
    (hn : idsNodup s) (hr : RankedBy s f = true) {t : Topic}
    {sub : TopicTree}
    (h : SubtreeAt (TopicService.buildTopicTree s (s.length + 1) t) sub) :
    sub.children.map TopicTree.topic =
      TopicRepository.findByParentId s sub.topic.id := by
  rcases subtreeAt_build h (s.length + 1) t rfl with ⟨d, u, hd, hsubeq, hdu⟩
  have hdlen : d ≤ s.length := by
    rcases hdu with ⟨rfl, _⟩ | hdn
    · omega
    · exact descN_le_length hn hr hdn
  obtain ⟨g, hg⟩ : ∃ g, s.length + 1 - d = g + 1 :=
    ⟨s.length - d, by omega⟩
  rw [hsubeq, hg, TopicService.buildTopicTree]
  simp only [TopicTree.children, TopicTree.topic, List.map_map]
  have hfun : (TopicTree.topic ∘ TopicService.buildTopicTree s g) =
      fun c : Topic => c := by
    funext c
    exact buildTopicTree_topic s g c
  rw [hfun]
  simp

/-- C6: over a well-formed store (distinct ids, acyclic hierarchy),
`getTopicTree` returns `none` exactly when the id is absent; otherwise it
returns a nested tree rooted at the found record that contains the
designated topic and every transitive descendant exactly once and no
non-descendant, and every node carries exactly its topic's direct children
(so each descendant hangs under its immediate parent). -/
theorem claim_c6_topic_tree (s : Store) (f : String → Nat) (topicId : String)
    (hn : idsNodup s) (hr : RankedBy s f = true) :
    (JsonDatabase.findById s topicId = none →
      TopicService.getTopicTree s topicId = none) ∧
    (∀ t, JsonDatabase.findById s topicId = some t →
      ∃ tree, TopicService.getTopicTree s topicId = some tree ∧
        tree.topic = t ∧
        (∀ u, u ∈ tree.flatten ↔ u = t ∨ Desc s t u) ∧
        tree.flatten.Nodup ∧
        (∀ sub, SubtreeAt tree sub →
          sub.children.map TopicTree.topic =
            TopicRepository.findByParentId s sub.topic.id ∧
          ∀ c ∈ sub.children,
            c.topic.parentTopicId = some sub.topic.id)) := by
  constructor
  · intro hnone
    rw [TopicService.getTopicTree, hnone]
    rfl
  · intro t hfind
    have ht : t ∈ s := (find?_eq_some_mem hfind).1
    refine ⟨TopicService.buildTopicTree s (s.length + 1) t, ?_, ?_, ?_, ?_, ?_⟩
    · rw [TopicService.getTopicTree, hfind]
      rfl
    · exact buildTopicTree_topic s _ t
    · exact fun u => mem_flatten_build_full hn hr t u
    · exact nodup_flatten_build hn hr _ t ht
    · intro sub hsub
      have hmap := subtree_children_eq hn hr hsub
      refine ⟨hmap, ?_⟩
      intro c hc
      have : c.topic ∈ sub.children.map TopicTree.topic :=
        List.mem_map_of_mem _ hc
      rw [hmap] at this
      exact ((mem_children_iff s sub.topic c.topic).mp this).2

/-- C6 witness: the three-record chain store `t1 ← t2 ← t3` at root `t1`,
ranked by depth. -/
theorem claim_c6_witness :
    ∃ tree, TopicService.getTopicTree [topicT1, topicT2, topicT3] "t1" =
        some tree ∧
      tree.topic = topicT1 ∧
      (∀ u, u ∈ tree.flatten ↔ u = topicT1 ∨
        Desc [topicT1, topicT2, topicT3] topicT1 u) ∧
      tree.flatten.Nodup ∧
      (∀ sub, SubtreeAt tree sub →
        sub.children.map TopicTree.topic =
          TopicRepository.findByParentId [topicT1, topicT2, topicT3]
            sub.topic.id ∧
        ∀ c ∈ sub.children,
          c.topic.parentTopicId = some sub.topic.id) :=
  (claim_c6_topic_tree [topicT1, topicT2, topicT3]
    (fun id => if id = "t1" then 0 else if id = "t2" then 1 else 2) "t1"
    (by decide) (by decide)).2 topicT1 rfl

/-! ## C5 — findPath: breadth-first shortest paths in the undirected
parent/child graph

Graph-theoretic notions over the store, and correctness lemmas for the
graph the source builds in `findPath` and its BFS loop. -/

/-- Undirected parent/child adjacency between two ids of the store. -/
def Edge (s : Store) (a b : String) : Prop :=
  ∃ t ∈ s, (t.id = a ∧ t.parentTopicId = some b) ∨
    (t.id = b ∧ t.parentTopicId = some a)

theorem Edge.symm {s : Store} {a b : String} (h : Edge s a b) : Edge s b a := by
  rcases h with ⟨t, ht, h | h⟩
  · exact ⟨t, ht, Or.inr h⟩
  · exact ⟨t, ht, Or.inl h⟩

/-- A walk from `a` to `b`: a sequence of ids joined by undirected
parent/child edges, inclusive of both endpoints. -/
def IsWalk (s : Store) (a b : String) (l : List String) : Prop :=
  l.Chain' (Edge s) ∧ l.head? = some a ∧ l.getLast? = some b

/-- Some connecting chain of parent/child edges exists. -/
def Connected (s : Store) (a b : String) : Prop := ∃ l, IsWalk s a b l

/-! Lemmas about the association-list graph operations. -/

theorem Graph.adj_nil (k : String) : Graph.adj [] k = [] := rfl

theorem Graph.adj_cons (p : String × List String) (g : Graph) (k : String) :
    Graph.adj (p :: g) k = if p.1 == k then p.2 else Graph.adj g k := by
  rw [Graph.adj, Graph.adj, List.find?_cons]
  cases h : (p.1 == k) <;> simp [h]

theorem Graph.hasNode_nil (k : String) : Graph.hasNode [] k = false := rfl

theorem Graph.hasNode_cons (p : String × List String) (g : Graph)
    (k : String) :
    Graph.hasNode (p :: g) k = ((p.1 == k) || Graph.hasNode g k) := by
  rw [Graph.hasNode, Graph.hasNode, List.any_cons]

theorem Graph.hasNode_append (g g' : Graph) (k : String) :
    Graph.hasNode (g ++ g') k =
      (Graph.hasNode g k || Graph.hasNode g' k) := by
  rw [Graph.hasNode, Graph.hasNode, Graph.hasNode, List.any_append]

theorem Graph.adj_ensure (g : Graph) (k k' : String) :
    Graph.adj (Graph.ensure g k) k' = Graph.adj g k' := by
  rw [Graph.ensure]
  by_cases h : Graph.hasNode g k = true
  · rw [if_pos h]
  · rw [if_neg h]
    induction g with
    | nil =>
      rw [List.nil_append, Graph.adj_cons, Graph.adj_nil]
      by_cases hk : ((k, ([] : List String)).1 == k') = true
      · rw [if_pos hk]
      · rw [if_neg hk]
    | cons p g ih =>
      rw [List.cons_append, Graph.adj_cons, Graph.adj_cons]
      by_cases hp : (p.1 == k') = true
      · rw [if_pos hp, if_pos hp]
      · rw [if_neg hp, if_neg hp]
        exact ih (by
          rw [Graph.hasNode_cons] at h
          intro hc
          exact h (by rw [hc, Bool.or_true]))

theorem Graph.hasNode_ensure (g : Graph) (k k' : String) :
    Graph.hasNode (Graph.ensure g k) k' =
      (Graph.hasNode g k' || (k == k')) := by
  rw [Graph.ensure]
  by_cases h : Graph.hasNode g k = true
  · rw [if_pos h]
    by_cases h' : (k == k') = true
    · have hkk : k = k' := by simpa using h'
      subst hkk
      simp [h, h']
    · have h'' : (k == k') = false := by simpa using h'
      rw [h'', Bool.or_false]
  · rw [if_neg h, Graph.hasNode_append, Graph.hasNode_cons,
      Graph.hasNode_nil, Bool.or_false]

theorem Graph.hasNode_push (g : Graph) (k v k' : String) :
    Graph.hasNode (Graph.push g k v) k' = Graph.hasNode g k' := by
  induction g with
  | nil => rfl
  | cons p g ih =>
    rw [Graph.push, List.map_cons, Graph.hasNode_cons, Graph.hasNode_cons]
    rw [show Graph.hasNode (List.map
        (fun p => if p.1 == k then (p.1, p.2 ++ [v]) else p) g) k' =
        Graph.hasNode g k' from ih]
    by_cases hp : (p.1 == k) = true
    · rw [if_pos hp]
    · rw [if_neg hp]

theorem Graph.adj_push_ne (g : Graph) (k v k' : String) (h : k' ≠ k) :
    Graph.adj (Graph.push g k v) k' = Graph.adj g k' := by
  induction g with
  | nil => rfl
  | cons p g ih =>
    rw [Graph.push, List.map_cons]
    by_cases hp : (p.1 == k) = true
    · rw [if_pos hp]
      have hp' : p.1 = k := by simpa using hp
      have hcond : ((p.1 : String) == k') = false := by
        refine beq_eq_false_iff_ne.mpr ?_
        rw [hp']
        exact fun hh => h hh.symm
      rw [Graph.adj_cons, Graph.adj_cons]
      rw [show (((p.1, p.2 ++ [v]) : String × List String).1 == k') = false
        from hcond]
      simpa [Graph.push] using ih
    · rw [if_neg hp, Graph.adj_cons, Graph.adj_cons]
      by_cases hpk : (p.1 == k') = true
      · rw [if_pos hpk, if_pos hpk]
      · rw [if_neg hpk, if_neg hpk]
        exact ih

theorem Graph.adj_push_self (g : Graph) (k v : String)
    (h : Graph.hasNode g k = true) :
    Graph.adj (Graph.push g k v) k = Graph.adj g k ++ [v] := by
  induction g with
  | nil => simp [Graph.hasNode] at h
  | cons p g ih =>
    rw [Graph.push, List.map_cons]
    by_cases hp : (p.1 == k) = true
    · rw [if_pos hp]
      simp [Graph.adj_cons, hp]
    · rw [if_neg hp, Graph.adj_cons, Graph.adj_cons, if_neg hp, if_neg hp]
      exact ih (by rw [Graph.hasNode_cons] at h; simpa [hp] using h)

/-! Characterization of the graph `findPath` builds: its adjacency is
exactly the undirected parent/child relation, its nodes are the stored ids
(plus referenced parents), and its keys are distinct. -/

theorem hasNode_iff_mem_keys (g : Graph) (k : String) :
    Graph.hasNode g k = true ↔ k ∈ g.map Prod.fst := by
  rw [Graph.hasNode, List.any_eq_true]
  constructor
  · rintro ⟨p, hp, hpk⟩
    exact List.mem_map.mpr ⟨p, hp, by simpa using hpk⟩
  · intro h
    rcases List.mem_map.mp h with ⟨p, hp, hpk⟩
    exact ⟨p, hp, by simpa using hpk⟩

theorem adj_buildGraphStep (g : Graph) (t : Topic) (a b : String) :
    b ∈ Graph.adj (TopicRepository.buildGraphStep g t) a ↔
      b ∈ Graph.adj g a ∨
        ∃ p, t.parentTopicId = some p ∧
          ((a = p ∧ b = t.id) ∨ (a = t.id ∧ b = p)) := by
  rw [TopicRepository.buildGraphStep]
  cases hp : t.parentTopicId with
  | none => simp [Graph.adj_ensure]
  | some p =>
    simp only
    have hnp : Graph.hasNode (Graph.ensure (Graph.ensure g t.id) p) p =
        true := by
      rw [Graph.hasNode_ensure]
      simp
    by_cases hat : a = t.id
    · subst hat
      by_cases hap : p = t.id
      · subst hap
        have hn3 : Graph.hasNode
            (Graph.push (Graph.ensure (Graph.ensure g t.id) t.id) t.id
              t.id) t.id = true := by
          rw [Graph.hasNode_push]
          exact hnp
        rw [Graph.adj_push_self _ _ _ hn3, Graph.adj_push_self _ _ _ hnp,
          Graph.adj_ensure, Graph.adj_ensure]
        simp only [List.mem_append, List.mem_singleton]
        constructor
        · rintro ((h | h) | h)
          · exact Or.inl h
          · exact Or.inr ⟨t.id, rfl, Or.inl ⟨by trivial, h⟩⟩
          · exact Or.inr ⟨t.id, rfl, Or.inr ⟨by trivial, h⟩⟩
        · rintro (h | ⟨p', hp', (⟨h1, h2⟩ | ⟨h1, h2⟩)⟩)
          · exact Or.inl (Or.inl h)
          · exact Or.inl (Or.inr h2)
          · rw [h2]
            exact Or.inr (Option.some.inj hp').symm
      · have hn3 : Graph.hasNode
            (Graph.push (Graph.ensure (Graph.ensure g t.id) p) p t.id)
              t.id = true := by
          rw [Graph.hasNode_push, Graph.hasNode_ensure, Graph.hasNode_ensure]
          simp
        rw [Graph.adj_push_self _ _ _ hn3,
          Graph.adj_push_ne _ _ _ _ (fun hh => hap hh.symm),
          Graph.adj_ensure, Graph.adj_ensure]
        simp only [List.mem_append, List.mem_singleton]
        constructor
        · rintro (h | h)
          · exact Or.inl h
          · exact Or.inr ⟨p, rfl, Or.inr ⟨by trivial, h⟩⟩
        · rintro (h | ⟨p', hp', (⟨h1, h2⟩ | ⟨h1, h2⟩)⟩)
          · exact Or.inl h
          · exact absurd ((Option.some.inj hp').trans h1.symm) hap
          · rw [h2]
            exact Or.inr (Option.some.inj hp').symm
    · rw [Graph.adj_push_ne _ _ _ _ hat]
      by_cases hap : a = p
      · have hpa : p = a := hap.symm
        subst hpa
        rw [Graph.adj_push_self _ _ _ hnp, Graph.adj_ensure,
          Graph.adj_ensure]
        simp only [List.mem_append, List.mem_singleton]
        constructor
        · rintro (h | h)
          · exact Or.inl h
          · exact Or.inr ⟨p, rfl, Or.inl ⟨rfl, h⟩⟩
        · rintro (h | ⟨p', hp', (⟨h1, h2⟩ | ⟨h1, h2⟩)⟩)
          · exact Or.inl h
          · exact Or.inr h2
          · exact absurd h1 hat
      · rw [Graph.adj_push_ne _ _ _ _ hap, Graph.adj_ensure,
          Graph.adj_ensure]
        constructor
        · exact Or.inl
        · rintro (h | ⟨p', hp', (⟨h1, h2⟩ | ⟨h1, h2⟩)⟩)
          · exact h
          · exact absurd (h1.trans (Option.some.inj hp').symm) hap
          · exact absurd h1 hat

theorem hasNode_buildGraphStep (g : Graph) (t : Topic) (k : String) :
    Graph.hasNode (TopicRepository.buildGraphStep g t) k = true ↔
      Graph.hasNode g k = true ∨ t.id = k ∨ t.parentTopicId = some k := by
  rw [TopicRepository.buildGraphStep]
  cases hp : t.parentTopicId with
  | none =>
    rw [Graph.hasNode_ensure]
    simp
  | some p =>
    simp only
    rw [Graph.hasNode_push, Graph.hasNode_push, Graph.hasNode_ensure,
      Graph.hasNode_ensure]
    simp [or_assoc]

theorem Edge_cons (t : Topic) (l : List Topic) (a b : String) :
    Edge (t :: l) a b ↔
      (∃ p, t.parentTopicId = some p ∧
        ((a = p ∧ b = t.id) ∨ (a = t.id ∧ b = p))) ∨ Edge l a b := by
  constructor
  · rintro ⟨u, hu, hcase⟩
    rcases List.mem_cons.mp hu with rfl | hu'
    · rcases hcase with ⟨h1, h2⟩ | ⟨h1, h2⟩
      · exact Or.inl ⟨b, h2, Or.inr ⟨h1.symm, rfl⟩⟩
      · exact Or.inl ⟨a, h2, Or.inl ⟨rfl, h1.symm⟩⟩
    · exact Or.inr ⟨u, hu', hcase⟩
  · rintro (⟨p, hp, (⟨h1, h2⟩ | ⟨h1, h2⟩)⟩ | ⟨u, hu, hc⟩)
    · refine ⟨t, List.mem_cons_self _ _, Or.inr ⟨h2.symm, ?_⟩⟩
      rw [hp, h1]
    · refine ⟨t, List.mem_cons_self _ _, Or.inl ⟨h1.symm, ?_⟩⟩
      rw [hp, h2]
    · exact ⟨u, List.mem_cons_of_mem _ hu, hc⟩

theorem adj_foldl_buildGraphStep (l : List Topic) :
    ∀ (g : Graph) (a b : String),
      b ∈ Graph.adj (l.foldl TopicRepository.buildGraphStep g) a ↔
        b ∈ Graph.adj g a ∨ Edge l a b := by
  induction l with
  | nil =>
    intro g a b
    simp [Edge]
  | cons t l ih =>
    intro g a b
    rw [List.foldl_cons, ih, adj_buildGraphStep, Edge_cons, or_assoc]

/-- The adjacency of the graph `findPath` builds is exactly the undirected
parent/child relation of the store. -/
theorem adj_buildGraph (s : Store) (a b : String) :
    b ∈ Graph.adj (TopicRepository.buildGraph s) a ↔ Edge s a b := by
  rw [TopicRepository.buildGraph, adj_foldl_buildGraphStep]
  simp [Graph.adj_nil]

theorem hasNode_foldl_buildGraphStep (l : List Topic) :
    ∀ (g : Graph) (k : String),
      Graph.hasNode (l.foldl TopicRepository.buildGraphStep g) k = true ↔
        Graph.hasNode g k = true ∨ (∃ t ∈ l, t.id = k) ∨
          (∃ t ∈ l, t.parentTopicId = some k) := by
  induction l with
  | nil =>
    intro g k
    simp
  | cons t l ih =>
    intro g k
    rw [List.foldl_cons, ih, hasNode_buildGraphStep]
    constructor
    · rintro ((h | h | h) | h | h)
      · exact Or.inl h
      · exact Or.inr (Or.inl ⟨t, List.mem_cons_self _ _, h⟩)
      · exact Or.inr (Or.inr ⟨t, List.mem_cons_self _ _, h⟩)
      · rcases h with ⟨u, hu, hk⟩
        exact Or.inr (Or.inl ⟨u, List.mem_cons_of_mem _ hu, hk⟩)
      · rcases h with ⟨u, hu, hk⟩
        exact Or.inr (Or.inr ⟨u, List.mem_cons_of_mem _ hu, hk⟩)
    · rintro (h | ⟨u, hu, hk⟩ | ⟨u, hu, hk⟩)
      · exact Or.inl (Or.inl h)
      · rcases List.mem_cons.mp hu with rfl | hu'
        · exact Or.inl (Or.inr (Or.inl hk))
        · exact Or.inr (Or.inl ⟨u, hu', hk⟩)
      · rcases List.mem_cons.mp hu with rfl | hu'
        · exact Or.inl (Or.inr (Or.inr hk))
        · exact Or.inr (Or.inr ⟨u, hu', hk⟩)

/-- The nodes of the built graph: stored ids and referenced parent ids. -/
theorem hasNode_buildGraph (s : Store) (k : String) :
    Graph.hasNode (TopicRepository.buildGraph s) k = true ↔
      (∃ t ∈ s, t.id = k) ∨ (∃ t ∈ s, t.parentTopicId = some k) := by
  rw [TopicRepository.buildGraph, hasNode_foldl_buildGraphStep]
  simp [Graph.hasNode_nil]

/-- Over a store whose parent references resolve, the nodes are exactly the
stored ids. -/
theorem hasNode_buildGraph_wf (s : Store) (hpe : parentsExist s = true)
    (k : String) :
    Graph.hasNode (TopicRepository.buildGraph s) k = true ↔
      ∃ t ∈ s, t.id = k := by
  rw [hasNode_buildGraph]
  constructor
  · rintro (h | ⟨t, ht, hk⟩)
    · exact h
    · exact (parentsExist_iff s).mp hpe t ht k hk
  · exact Or.inl

theorem keys_push (g : Graph) (k v : String) :
    (Graph.push g k v).map Prod.fst = g.map Prod.fst := by
  rw [Graph.push, List.map_map]
  refine List.map_congr_left ?_
  intro p _
  by_cases h : p.1 = k <;> simp [h]

theorem keysNodup_ensure (g : Graph) (k : String)
    (h : (g.map Prod.fst).Nodup) :
    ((Graph.ensure g k).map Prod.fst).Nodup := by
  rw [Graph.ensure]
  by_cases hk : Graph.hasNode g k = true
  · rw [if_pos hk]
    exact h
  · rw [if_neg hk, List.map_append]
    rw [List.nodup_append]
    refine ⟨h, by simp, ?_⟩
    intro x hx
    simp only [List.map_cons, List.map_nil, List.mem_singleton]
    intro hxk
    subst hxk
    exact hk ((hasNode_iff_mem_keys g x).mpr hx)

theorem keysNodup_buildGraphStep (g : Graph) (t : Topic)
    (h : (g.map Prod.fst).Nodup) :
    ((TopicRepository.buildGraphStep g t).map Prod.fst).Nodup := by
  rw [TopicRepository.buildGraphStep]
  cases hp : t.parentTopicId with
  | none => exact keysNodup_ensure g t.id h
  | some p =>
    simp only
    rw [keys_push, keys_push]
    exact keysNodup_ensure _ p (keysNodup_ensure g t.id h)

/-- The keys of the built graph are pairwise distinct. -/
theorem keysNodup_buildGraph (s : Store) :
    ((TopicRepository.buildGraph s).map Prod.fst).Nodup := by
  rw [TopicRepository.buildGraph]
  have : ∀ (g : Graph), (g.map Prod.fst).Nodup →
      ((s.foldl TopicRepository.buildGraphStep g).map Prod.fst).Nodup := by
    induction s with
    | nil => intro g h; exact h
    | cons t l ih =>
      intro g h
      rw [List.foldl_cons]
      exact ih _ (keysNodup_buildGraphStep g t h)
  exact this [] (by simp)

/-! The BFS loop: invariant, reconstruction, minimality. -/

theorem vHas_iff_mem (v : TopicRepository.Visited) (k : String) :
    TopicRepository.vHas v k = true ↔ k ∈ v.map Prod.fst := by
  rw [TopicRepository.vHas, List.any_eq_true]
  constructor
  · rintro ⟨p, hp, hpk⟩
    exact List.mem_map.mpr ⟨p, hp, by simpa using hpk⟩
  · intro h
    rcases List.mem_map.mp h with ⟨p, hp, hpk⟩
    exact ⟨p, hp, by simpa using hpk⟩

theorem vHas_append (v v' : TopicRepository.Visited) (k : String) :
    TopicRepository.vHas (v ++ v') k =
      (TopicRepository.vHas v k || TopicRepository.vHas v' k) := by
  rw [TopicRepository.vHas, TopicRepository.vHas, TopicRepository.vHas,
    List.any_append]

/-- A nodup list included in another list is no longer than it. -/
theorem nodup_subset_length {l1 l2 : List String} (h1 : l1.Nodup)
    (hsub : ∀ x ∈ l1, x ∈ l2) : l1.length ≤ l2.length := by
  have hcard : l1.toFinset.card = l1.length := List.toFinset_card_of_nodup h1
  have hsub' : l1.toFinset ⊆ l2.toFinset := fun x hx =>
    List.mem_toFinset.mpr (hsub x (List.mem_toFinset.mp hx))
  have h2 := Finset.card_le_card hsub'
  have h3 := l2.toFinset_card_le
  omega

/-- The neighbor loop of one BFS iteration: it appends the not-yet-visited
neighbors (first occurrences, in order) to the queue, and records each with
the current node as predecessor. -/
theorem fold_visit (current : String) (ns : List String) :
    ∀ (q0 : List String) (v0 : TopicRepository.Visited),
      ∃ fresh : List String,
        ns.foldl (TopicRepository.bfsVisitStep current) (q0, v0) =
          (q0 ++ fresh, v0 ++ fresh.map (fun w => (w, some current))) ∧
        fresh.Nodup ∧
        (∀ w ∈ fresh, w ∈ ns ∧ TopicRepository.vHas v0 w = false) ∧
        (∀ w ∈ ns, TopicRepository.vHas v0 w = false → w ∈ fresh) := by
  induction ns with
  | nil =>
    intro q0 v0
    exact ⟨[], by simp, by simp, by simp, by simp⟩
  | cons n ns ih =>
    intro q0 v0
    rw [List.foldl_cons]
    simp only [TopicRepository.bfsVisitStep]
    by_cases hn : TopicRepository.vHas v0 n = true
    · rw [if_pos hn]
      rcases ih q0 v0 with ⟨fresh, heq, hnd, hmem, hcompl⟩
      refine ⟨fresh, heq, hnd, ?_, ?_⟩
      · intro w hw
        exact ⟨List.mem_cons_of_mem _ (hmem w hw).1, (hmem w hw).2⟩
      · intro w hw hvw
        rcases List.mem_cons.mp hw with rfl | hw'
        · rw [hn] at hvw
          cases hvw
        · exact hcompl w hw' hvw
    · rw [if_neg hn]
      rcases ih (q0 ++ [n]) (v0 ++ [(n, some current)]) with
        ⟨fresh, heq, hnd, hmem, hcompl⟩
      refine ⟨n :: fresh, ?_, ?_, ?_, ?_⟩
      · rw [heq]
        simp
      · rw [List.nodup_cons]
        refine ⟨?_, hnd⟩
        intro hmemn
        have h2 := (hmem n hmemn).2
        rw [vHas_append, Bool.or_eq_false_iff] at h2
        have : TopicRepository.vHas [(n, some current)] n = true := by
          simp [TopicRepository.vHas]
        rw [h2.2] at this
        cases this
      · intro w hw
        rcases List.mem_cons.mp hw with rfl | hw'
        · exact ⟨List.mem_cons_self _ _, Bool.eq_false_iff.mpr hn⟩
        · have h1 := hmem w hw'
          refine ⟨List.mem_cons_of_mem _ h1.1, ?_⟩
          have h2 := h1.2
          rw [vHas_append, Bool.or_eq_false_iff] at h2
          exact h2.1
      · intro w hw hvw
        rcases List.mem_cons.mp hw with rfl | hw'
        · exact List.mem_cons_self _ _
        · by_cases hwn : w = n
          · rw [hwn]
            exact List.mem_cons_self _ _
          · refine List.mem_cons_of_mem _ (hcompl w hw' ?_)
            rw [vHas_append, Bool.or_eq_false_iff]
            refine ⟨hvw, ?_⟩
            simp only [TopicRepository.vHas, List.any_cons, List.any_nil,
              Bool.or_false]
            simpa using fun hh => hwn hh.symm

/-- The loop invariant of the BFS: the visited map lists, in discovery
order, first the processed nodes (`done`) then the queue; predecessors are
adjacent, earlier, and one level shallower (ghost level function `D`);
processed nodes have all their neighbors visited within one extra level;
levels never decrease along the discovery order; and `endId` has not been
processed. -/
structure BfsInv (s : Store) (g : Graph) (start endId : String)
    (q : List String) (v : TopicRepository.Visited) (D : String → Nat) :
    Prop where
  hnd : (v.map Prod.fst).Nodup
  hsplit : ∃ done, v.map Prod.fst = done ++ q ∧ endId ∉ done ∧
    ∀ u ∈ done, ∀ w ∈ Graph.adj g u,
      TopicRepository.vHas v w = true ∧ D w ≤ D u + 1
  hstartmem : (start, none) ∈ v
  hstartD : D start = 0
  hnone : ∀ k p, (k, p) ∈ v → p = none → k = start
  hpred : ∀ k p, (k, some p) ∈ v →
    Edge s p k ∧ TopicRepository.vHas v p = true ∧ D k = D p + 1
  hsub : ∀ k, TopicRepository.vHas v k = true → Graph.hasNode g k = true
  hmono : (v.map Prod.fst).Pairwise (fun a b => D a ≤ D b)
  hcap : ∀ w, TopicRepository.vHas v w = true →
    ∀ u, q.head? = some u → D w ≤ D u + 1
  hDbound : ∀ k, TopicRepository.vHas v k = true → D k < v.length

/-- A walk of exactly `n` edges. -/
def WalkN (s : Store) (a b : String) (n : Nat) : Prop :=
  ∃ l, IsWalk s a b l ∧ l.length = n + 1

theorem walkN_zero {s : Store} {a y : String} (h : WalkN s a y 0) : y = a := by
  rcases h with ⟨l, ⟨_, hh, hl⟩, hlen⟩
  cases l with
  | nil => cases hh
  | cons x xs =>
    cases xs with
    | nil =>
      simp at hh hl
      rw [← hh, ← hl]
    | cons z zs => simp at hlen

theorem walkN_succ {s : Store} {a y : String} {n : Nat}
    (h : WalkN s a y (n + 1)) : ∃ x, WalkN s a x n ∧ Edge s x y := by
  rcases h with ⟨l, ⟨hch, hh, hl⟩, hlen⟩
  have hne : l ≠ [] := by
    intro hc
    rw [hc] at hlen
    simp at hlen
  have hsplit := List.dropLast_append_getLast hne
  have hlast : l.getLast hne = y := by
    have := List.getLast?_eq_getLast l hne
    rw [hl] at this
    exact (Option.some.inj this).symm
  have hdllen : l.dropLast.length = n + 1 := by
    rw [List.length_dropLast, hlen]
    omega
  have hdlne : l.dropLast ≠ [] := by
    intro hc
    rw [hc] at hdllen
    simp at hdllen
  obtain ⟨x, hx⟩ : ∃ x, l.dropLast.getLast? = some x := by
    cases hgl : l.dropLast.getLast? with
    | none => exact absurd (List.getLast?_eq_none_iff.mp hgl) hdlne
    | some x => exact ⟨x, rfl⟩
  have hch' : List.Chain' (Edge s) (l.dropLast ++ [l.getLast hne]) := by
    rw [hsplit]
    exact hch
  rw [List.chain'_append] at hch'
  refine ⟨x, ⟨l.dropLast, ⟨hch'.1, ?_, hx⟩, hdllen⟩, ?_⟩
  · rw [← hsplit] at hh
    cases hdl : l.dropLast with
    | nil => exact absurd hdl hdlne
    | cons z zs =>
      rw [hdl] at hh
      simpa using hh
  · have := hch'.2.2 x hx y (by rw [hlast]; rfl)
    exact this

theorem isWalk_walkN {s : Store} {a b : String} {l : List String}
    (h : IsWalk s a b l) : WalkN s a b (l.length - 1) := by
  have hne : l ≠ [] := by
    intro hc
    rcases h with ⟨_, hh, _⟩
    rw [hc] at hh
    cases hh
  have : l.length - 1 + 1 = l.length := by
    cases l with
    | nil => exact absurd rfl hne
    | cons x xs => simp
  exact ⟨l, h, this.symm⟩

theorem vGet_eq {v : TopicRepository.Visited} {k : String}
    (h : TopicRepository.vHas v k = true) :
    ∃ po, TopicRepository.vGet v k = some po ∧ (k, po) ∈ v := by
  rw [TopicRepository.vHas, List.any_eq_true] at h
  cases hf : v.find? (fun p => p.1 == k) with
  | none =>
    rcases h with ⟨e, he, hek⟩
    rw [List.find?_eq_none] at hf
    exact absurd hek (by simpa using hf e he)
  | some e =>
    have hm := List.mem_of_find?_eq_some hf
    have hk := List.find?_some hf
    have hek : e.1 = k := by simpa using hk
    refine ⟨e.2, ?_, ?_⟩
    · rw [TopicRepository.vGet, hf]
      rfl
    · rw [← hek]
      exact hm

/-- `reconstructPath` follows predecessors from `cur` back to `start`,
prepending them: it yields a walk of exactly `D cur` edges from `start` to
`cur`, entirely within the visited set. -/
theorem recon_spec {s : Store} {start : String}
    {v : TopicRepository.Visited} {D : String → Nat}
    (hnone : ∀ k p, (k, p) ∈ v → p = none → k = start)
    (hpred : ∀ k p, (k, some p) ∈ v →
      Edge s p k ∧ TopicRepository.vHas v p = true ∧ D k = D p + 1)
    (hstartD : D start = 0) :
    ∀ (fuel : Nat) (cur : String) (rest : List String),
      TopicRepository.vHas v cur = true → D cur + 1 ≤ fuel →
      ∃ chain : List String,
        TopicRepository.reconPath v start fuel cur (cur :: rest) =
          chain ++ rest ∧
        chain.head? = some start ∧ chain.getLast? = some cur ∧
        chain.Chain' (Edge s) ∧ chain.length = D cur + 1 ∧
        ∀ x ∈ chain, TopicRepository.vHas v x = true := by
  intro fuel
  induction fuel with
  | zero =>
    intro cur rest hv hD
    omega
  | succ fuel ih =>
    intro cur rest hv hD
    rw [TopicRepository.reconPath]
    by_cases hcs : (cur == start) = true
    · have hcur : cur = start := by simpa using hcs
      subst hcur
      rw [if_pos hcs]
      exact ⟨[cur], by simp, rfl, by simp, by simp, by simp [hstartD],
        by simpa using hv⟩
    · rw [if_neg hcs]
      rcases vGet_eq hv with ⟨po, hpo, hmem⟩
      cases po with
      | none =>
        exact absurd (hnone cur none hmem rfl) (by simpa using hcs)
      | some p =>
        rw [hpo]
        rcases hpred cur p hmem with ⟨hedge, hvp, hDc⟩
        rcases ih p (cur :: rest) hvp (by omega) with
          ⟨chain, heq, hhead, hlast, hchain, hlen, hmemall⟩
        refine ⟨chain ++ [cur], ?_, ?_, List.getLast?_concat _, ?_, ?_, ?_⟩
        · show TopicRepository.reconPath v start fuel p (p :: cur :: rest) =
            (chain ++ [cur]) ++ rest
          rw [heq, List.append_assoc]
          rfl
        · rcases List.head?_eq_some_iff.mp hhead with ⟨tl, htl⟩
          rw [htl]
          rfl
        · rw [List.chain'_append]
          refine ⟨hchain, List.chain'_singleton _, ?_⟩
          intro x hx y hy
          rw [hlast] at hx
          have hx' : x = p := by simpa using hx.symm
          have hy' : y = cur := by simpa using hy.symm
          rw [hx', hy']
          exact hedge
        · rw [List.length_append, hlen]
          simp [hDc]
        · intro x hx
          rcases List.mem_append.mp hx with h | h
          · exact hmemall x h
          · rw [List.mem_singleton.mp h]
            exact hv

/-- Every visited node of strictly smaller level than the queue head at the
front of the discovery order has already been processed. -/
theorem mem_done_of_D_lt {v : TopicRepository.Visited} {D : String → Nat}
    {done rest : List String} {endId : String}
    (hmono : (v.map Prod.fst).Pairwise (fun a b => D a ≤ D b))
    (hkeys : v.map Prod.fst = done ++ endId :: rest) :
    ∀ k, TopicRepository.vHas v k = true → D k < D endId → k ∈ done := by
  intro k hk hlt
  have hmem : k ∈ done ++ endId :: rest := by
    rw [← hkeys]
    exact (vHas_iff_mem v k).mp hk
  rcases List.mem_append.mp hmem with h | h
  · exact h
  · rcases List.mem_cons.mp h with rfl | h'
    · omega
    · rw [hkeys] at hmono
      have hpc := (List.pairwise_append.mp hmono).2.1
      have h2 := List.rel_of_pairwise_cons hpc h'
      omega

/-- While the BFS has not yet dequeued `endId`, every walk from `start`
shorter than `endId`'s level stays within the processed set, at its length
as level bound. -/
theorem bfs_no_short_walk {s : Store} {g : Graph} {start endId : String}
    {v : TopicRepository.Visited} {D : String → Nat}
    {done rest : List String}
    (hg : ∀ a b, b ∈ Graph.adj g a ↔ Edge s a b)
    (hkeys : v.map Prod.fst = done ++ endId :: rest)
    (hfront : ∀ u ∈ done, ∀ w ∈ Graph.adj g u,
      TopicRepository.vHas v w = true ∧ D w ≤ D u + 1)
    (hmono : (v.map Prod.fst).Pairwise (fun a b => D a ≤ D b))
    (hstartmem : (start, none) ∈ v) (hstartD : D start = 0) :
    ∀ (n : Nat) (y : String), WalkN s start y n → n < D endId →
      y ∈ done ∧ D y ≤ n := by
  intro n
  induction n with
  | zero =>
    intro y hw hn
    have hy : y = start := walkN_zero hw
    subst hy
    have hvs : TopicRepository.vHas v y = true :=
      (vHas_iff_mem _ _).mpr (List.mem_map.mpr ⟨(y, none), hstartmem, rfl⟩)
    exact ⟨mem_done_of_D_lt hmono hkeys y hvs (by omega), by omega⟩
  | succ n ih =>
    intro y hw hn
    rcases walkN_succ hw with ⟨x, hwx, hedge⟩
    rcases ih x hwx (by omega) with ⟨hxdone, hxD⟩
    have hadj : y ∈ Graph.adj g x := (hg x y).mpr hedge
    rcases hfront x hxdone y hadj with ⟨hvy, hDy⟩
    exact ⟨mem_done_of_D_lt hmono hkeys y hvy (by omega), by omega⟩

/-- When the BFS dequeues `endId`, its recorded level is minimal: no walk
from `start` to `endId` has fewer than `D endId` edges. -/
theorem bfs_min_length {s : Store} {g : Graph} {start endId : String}
    {v : TopicRepository.Visited} {D : String → Nat}
    {done rest : List String}
    (hg : ∀ a b, b ∈ Graph.adj g a ↔ Edge s a b)
    (hkeys : v.map Prod.fst = done ++ endId :: rest)
    (hend : endId ∉ done)
    (hfront : ∀ u ∈ done, ∀ w ∈ Graph.adj g u,
      TopicRepository.vHas v w = true ∧ D w ≤ D u + 1)
    (hmono : (v.map Prod.fst).Pairwise (fun a b => D a ≤ D b))
    (hstartmem : (start, none) ∈ v) (hstartD : D start = 0) :
    ∀ l, IsWalk s start endId l → D endId + 1 ≤ l.length := by
  intro l hl
  have hw := isWalk_walkN hl
  have hlenpos : 1 ≤ l.length := by
    rcases hl with ⟨_, hh, _⟩
    cases l with
    | nil => cases hh
    | cons x xs => simp
  by_contra hc
  push_neg at hc
  have hlt : l.length - 1 < D endId := by omega
  have := bfs_no_short_walk hg hkeys hfront hmono hstartmem hstartD
    (l.length - 1) endId hw hlt
  exact hend this.1

/-- When the queue empties, the processed set is closed under adjacency and
contains `start`, so it contains every node reachable from `start`. -/
theorem bfs_closure {s : Store} {g : Graph} {start : String}
    {v : TopicRepository.Visited} {D : String → Nat}
    {done : List String}
    (hg : ∀ a b, b ∈ Graph.adj g a ↔ Edge s a b)
    (hkeys : v.map Prod.fst = done)
    (hfront : ∀ u ∈ done, ∀ w ∈ Graph.adj g u,
      TopicRepository.vHas v w = true ∧ D w ≤ D u + 1)
    (hstartmem : (start, none) ∈ v) :
    ∀ (n : Nat) (y : String), WalkN s start y n → y ∈ done := by
  intro n
  induction n with
  | zero =>
    intro y hw
    have hy : y = start := walkN_zero hw
    subst hy
    rw [← hkeys]
    exact List.mem_map.mpr ⟨(y, none), hstartmem, rfl⟩
  | succ n ih =>
    intro y hw
    rcases walkN_succ hw with ⟨x, hwx, hedge⟩
    have hxdone := ih x hwx
    have hadj : y ∈ Graph.adj g x := (hg x y).mpr hedge
    have hvy := (hfront x hxdone y hadj).1
    rw [← hkeys]
    exact (vHas_iff_mem v y).mp hvy

theorem map_fst_pair (c : Option String) (l : List String) :
    (l.map (fun w => (w, c))).map Prod.fst = l := by
  induction l with
  | nil => rfl
  | cons a t ih =>
    simp only [List.map_cons]
    rw [ih]

theorem pairwise_le_of_const {l : List String} {f : String → Nat} {c : Nat}
    (h : ∀ x ∈ l, f x = c) : l.Pairwise (fun a b => f a ≤ f b) := by
  induction l with
  | nil => exact List.Pairwise.nil
  | cons a l ih =>
    refine List.Pairwise.cons ?_
      (ih fun x hx => h x (List.mem_cons_of_mem _ hx))
    intro b hb
    rw [h a (List.mem_cons_self _ _), h b (List.mem_cons_of_mem _ hb)]

/-- One BFS iteration preserves the invariant: popping `current` (not the
target) and visiting its neighbors extends the processed prefix by
`current`, appends the newly discovered nodes, and extends the level
function by `D current + 1` on them. -/
theorem bfsInv_step {s : Store} {g : Graph} {start endId : String}
    (hg : ∀ a b, b ∈ Graph.adj g a ↔ Edge s a b)
    (hadjnode : ∀ a b, b ∈ Graph.adj g a → Graph.hasNode g b = true)
    {current : String} {rest : List String}
    {v : TopicRepository.Visited} {D : String → Nat}
    (inv : BfsInv s g start endId (current :: rest) v D)
    (hne : current ≠ endId) :
    ∃ (fresh : List String) (D' : String → Nat),
      (Graph.adj g current).foldl (TopicRepository.bfsVisitStep current)
          (rest, v) =
        (rest ++ fresh, v ++ fresh.map (fun w => (w, some current))) ∧
      BfsInv s g start endId (rest ++ fresh)
        (v ++ fresh.map (fun w => (w, some current))) D' ∧
      (∀ w ∈ fresh, TopicRepository.vHas v w = false) ∧ fresh.Nodup := by
  rcases fold_visit current (Graph.adj g current) rest v with
    ⟨fresh, heq, hndf, hmemf, hcomplf⟩
  refine ⟨fresh, fun x => if x ∈ fresh then D current + 1 else D x, heq,
    ?_, fun w hw => (hmemf w hw).2, hndf⟩
  set v' := v ++ fresh.map (fun w => (w, some current)) with hv'
  set D' := fun x => if x ∈ fresh then D current + 1 else D x with hD'
  have hkeys' : v'.map Prod.fst = v.map Prod.fst ++ fresh := by
    rw [hv', List.map_append, map_fst_pair]
  rcases inv.hsplit with ⟨done, hkeys, hend, hfront⟩
  have hcurkey : current ∈ v.map Prod.fst := by
    rw [hkeys]
    exact List.mem_append.mpr (Or.inr (List.mem_cons_self _ _))
  have hvcur : TopicRepository.vHas v current = true :=
    (vHas_iff_mem _ _).mpr hcurkey
  have holdD : ∀ x, TopicRepository.vHas v x = true → D' x = D x := by
    intro x hx
    rw [hD']
    simp only
    rw [if_neg]
    intro hin
    rw [(hmemf x hin).2] at hx
    cases hx
  have hfreshD : ∀ x ∈ fresh, D' x = D current + 1 := by
    intro x hx
    rw [hD']
    simp only
    rw [if_pos hx]
  have hDcur' : D' current = D current := holdD current hvcur
  have hvmono : ∀ x, TopicRepository.vHas v x = true →
      TopicRepository.vHas v' x = true := by
    intro x hx
    rw [hv', vHas_append, hx, Bool.true_or]
  have hvfresh : ∀ x ∈ fresh, TopicRepository.vHas v' x = true := by
    intro x hx
    rw [hv', vHas_append]
    have h2 : TopicRepository.vHas
        (fresh.map (fun w => (w, some current))) x = true := by
      rw [TopicRepository.vHas, List.any_eq_true]
      exact ⟨(x, some current), List.mem_map.mpr ⟨x, hx, rfl⟩, by simp⟩
    rw [h2, Bool.or_true]
  have hv'mem : ∀ x, TopicRepository.vHas v' x = true →
      TopicRepository.vHas v x = true ∨ x ∈ fresh := by
    intro x hx
    rw [hv', vHas_append, Bool.or_eq_true] at hx
    rcases hx with h | h
    · exact Or.inl h
    · right
      rw [TopicRepository.vHas, List.any_eq_true] at h
      rcases h with ⟨e, he, hex⟩
      rcases List.mem_map.mp he with ⟨w, hw, rfl⟩
      have hwx : w = x := by simpa using hex
      rw [← hwx]
      exact hw
  have hDheadcap : ∀ w, TopicRepository.vHas v w = true →
      D w ≤ D current + 1 :=
    fun w hw => inv.hcap w hw current rfl
  have hq_after : ∀ u' ∈ rest, D current ≤ D u' := by
    intro u' hu'
    have hp := inv.hmono
    rw [hkeys] at hp
    have hp2 := (List.pairwise_append.mp hp).2.1
    exact List.rel_of_pairwise_cons hp2 hu'
  have hrestkey : ∀ r ∈ rest, TopicRepository.vHas v r = true := by
    intro r hr
    refine (vHas_iff_mem _ _).mpr ?_
    rw [hkeys]
    exact List.mem_append.mpr (Or.inr (List.mem_cons_of_mem _ hr))
  refine ⟨?_, ?_, ?_, ?_, ?_, ?_, ?_, ?_, ?_, ?_⟩
  · -- hnd
    rw [hkeys']
    rw [List.nodup_append]
    refine ⟨inv.hnd, hndf, ?_⟩
    intro x hx hx'
    have h1 := (vHas_iff_mem v x).mpr hx
    rw [(hmemf x hx').2] at h1
    cases h1
  · -- hsplit
    refine ⟨done ++ [current], ?_, ?_, ?_⟩
    · rw [hkeys', hkeys]
      simp
    · intro hc
      rcases List.mem_append.mp hc with h | h
      · exact hend h
      · exact hne (List.mem_singleton.mp h).symm
    · intro u hu w hw
      rcases List.mem_append.mp hu with hud | huc
      · rcases hfront u hud w hw with ⟨h1, h2⟩
        refine ⟨hvmono w h1, ?_⟩
        have huv : TopicRepository.vHas v u = true := by
          refine (vHas_iff_mem _ _).mpr ?_
          rw [hkeys]
          exact List.mem_append.mpr (Or.inl hud)
        rw [holdD w h1, holdD u huv]
        exact h2
      · have hu' : u = current := List.mem_singleton.mp huc
        subst hu'
        by_cases hvw : TopicRepository.vHas v w = true
        · refine ⟨hvmono w hvw, ?_⟩
          rw [holdD w hvw, hDcur']
          exact hDheadcap w hvw
        · have hwf : w ∈ fresh :=
            hcomplf w hw (Bool.eq_false_iff.mpr hvw)
          refine ⟨hvfresh w hwf, ?_⟩
          rw [hfreshD w hwf, hDcur']
  · -- hstartmem
    exact List.mem_append.mpr (Or.inl inv.hstartmem)
  · -- hstartD
    have hvs : TopicRepository.vHas v start = true :=
      (vHas_iff_mem _ _).mpr
        (List.mem_map.mpr ⟨(start, none), inv.hstartmem, rfl⟩)
    rw [holdD start hvs]
    exact inv.hstartD
  · -- hnone
    intro k p hkp hpn
    rcases List.mem_append.mp hkp with h | h
    · exact inv.hnone k p h hpn
    · rcases List.mem_map.mp h with ⟨w, _, heqpair⟩
      have : some current = p := congrArg Prod.snd heqpair
      rw [← this] at hpn
      cases hpn
  · -- hpred
    intro k p hkp
    rcases List.mem_append.mp hkp with h | h
    · rcases inv.hpred k p h with ⟨he, hvp, hDk⟩
      have hkv : TopicRepository.vHas v k = true :=
        (vHas_iff_mem _ _).mpr (List.mem_map.mpr ⟨(k, some p), h, rfl⟩)
      refine ⟨he, hvmono _ hvp, ?_⟩
      rw [holdD k hkv, holdD p hvp]
      exact hDk
    · rcases List.mem_map.mp h with ⟨w, hwf, heqpair⟩
      have hk : w = k := congrArg Prod.fst heqpair
      have hp : some current = some p := congrArg Prod.snd heqpair
      have hpc : p = current := (Option.some.inj hp).symm
      subst hk
      subst hpc
      refine ⟨(hg p w).mp (hmemf w hwf).1, hvmono _ hvcur, ?_⟩
      rw [hfreshD w hwf, hDcur']
  · -- hsub
    intro k hk
    rcases hv'mem k hk with h | h
    · exact inv.hsub k h
    · exact hadjnode current k (hmemf k h).1
  · -- hmono
    rw [hkeys']
    rw [List.pairwise_append]
    refine ⟨?_, ?_, ?_⟩
    · refine List.Pairwise.imp_of_mem ?_ inv.hmono
      intro a b ha hb hab
      rw [holdD a ((vHas_iff_mem _ _).mpr ha),
        holdD b ((vHas_iff_mem _ _).mpr hb)]
      exact hab
    · exact pairwise_le_of_const hfreshD
    · intro a ha b hb
      rw [holdD a ((vHas_iff_mem _ _).mpr ha), hfreshD b hb]
      exact hDheadcap a ((vHas_iff_mem _ _).mpr ha)
  · -- hcap
    intro w hw u' hu'
    cases hrest : rest with
    | nil =>
      rw [hrest, List.nil_append] at hu'
      have huf : u' ∈ fresh := List.mem_of_mem_head? hu'
      rcases hv'mem w hw with h | h
      · rw [holdD w h, hfreshD u' huf]
        have := hDheadcap w h
        omega
      · rw [hfreshD w h, hfreshD u' huf]
        omega
    | cons r rs =>
      rw [hrest] at hu'
      have hur : r = u' := by simpa using hu'
      have hu'rest : u' ∈ rest := by
        rw [hrest, ← hur]
        exact List.mem_cons_self _ _
      have hu'v := hrestkey u' hu'rest
      have hcurle : D current ≤ D u' := hq_after u' hu'rest
      rcases hv'mem w hw with h | h
      · rw [holdD w h, holdD u' hu'v]
        have := hDheadcap w h
        omega
      · rw [hfreshD w h, holdD u' hu'v]
        omega
  · -- hDbound
    intro k hk
    have hlen' : v'.length = v.length + fresh.length := by
      rw [hv', List.length_append, List.length_map]
    rcases hv'mem k hk with h | h
    · rw [holdD k h]
      have := inv.hDbound k h
      omega
    · rw [hfreshD k h]
      have h1 := inv.hDbound current hvcur
      have h2 : 1 ≤ fresh.length := by
        cases hf : fresh with
        | nil =>
          rw [hf] at h
          cases h
        | cons a l => simp
      omega

/-- The visited set never outgrows the graph: its keys are distinct nodes
of `g`. -/
theorem visited_le_graph {s : Store} {g : Graph} {start endId : String}
    {q : List String} {v : TopicRepository.Visited} {D : String → Nat}
    (inv : BfsInv s g start endId q v D) : v.length ≤ g.length := by
  have h1 : (v.map Prod.fst).length ≤ (g.map Prod.fst).length := by
    refine nodup_subset_length inv.hnd ?_
    intro x hx
    have hv : TopicRepository.vHas v x = true := (vHas_iff_mem _ _).mpr hx
    exact (hasNode_iff_mem_keys g x).mp (inv.hsub x hv)
  rw [List.length_map, List.length_map] at h1
  exact h1

/-- Correctness of the fuel-indexed BFS loop: from an invariant state with
enough fuel, a `some` result is a minimal-length id walk from `start` to
`endId` through graph nodes, and a `none` result means no walk exists. -/
theorem bfsLoop_spec {s : Store} {g : Graph} {start endId : String}
    (hg : ∀ a b, b ∈ Graph.adj g a ↔ Edge s a b)
    (hadjnode : ∀ a b, b ∈ Graph.adj g a → Graph.hasNode g b = true) :
    ∀ (fuel : Nat) (q : List String) (v : TopicRepository.Visited)
      (D : String → Nat),
      BfsInv s g start endId q v D →
      q.length + 2 * (g.length - v.length) < fuel →
      ((∀ ids, TopicRepository.bfsLoop g start endId fuel q v = some ids →
          IsWalk s start endId ids ∧
          (∀ l, IsWalk s start endId l → ids.length ≤ l.length) ∧
          (∀ k ∈ ids, Graph.hasNode g k = true)) ∧
        (TopicRepository.bfsLoop g start endId fuel q v = none →
          ¬ Connected s start endId)) := by
  intro fuel
  induction fuel with
  | zero =>
    intro q v D inv hfuel
    exact absurd hfuel (by omega)
  | succ fuel ih =>
    intro q v D inv hfuel
    cases q with
    | nil =>
      constructor
      · intro ids hids
        simp [TopicRepository.bfsLoop] at hids
      · intro _ hconn
        rcases hconn with ⟨l, hl⟩
        rcases inv.hsplit with ⟨done, hkeys, hend, hfront⟩
        rw [List.append_nil] at hkeys
        have hw := isWalk_walkN hl
        exact hend
          (bfs_closure hg hkeys hfront inv.hstartmem (l.length - 1) endId hw)
    | cons current rest =>
      by_cases hce : current = endId
      · subst hce
        rcases inv.hsplit with ⟨done, hkeys, hend, hfront⟩
        have hvend : TopicRepository.vHas v current = true := by
          refine (vHas_iff_mem _ _).mpr ?_
          rw [hkeys]
          exact List.mem_append.mpr (Or.inr (List.mem_cons_self _ _))
        have hfuelrec : D current + 1 ≤ v.length + 1 := by
          have := inv.hDbound current hvend
          omega
        rcases recon_spec inv.hnone inv.hpred inv.hstartD (v.length + 1)
            current [] hvend hfuelrec with
          ⟨chain, hcheq, hhd, hlast, hch, hlen, hmemch⟩
        rw [List.append_nil] at hcheq
        have hred : TopicRepository.bfsLoop g start current (fuel + 1)
            (current :: rest) v = some chain := by
          simp only [TopicRepository.bfsLoop]
          rw [if_pos (beq_self_eq_true current), hcheq]
        constructor
        · intro ids hids
          rw [hred] at hids
          have hidseq : chain = ids := Option.some.inj hids
          subst hidseq
          refine ⟨⟨hch, hhd, hlast⟩, ?_, ?_⟩
          · intro l hl
            have := bfs_min_length hg hkeys hend hfront inv.hmono
              inv.hstartmem inv.hstartD l hl
            omega
          · intro k hk
            exact inv.hsub k (hmemch k hk)
        · intro hnone
          rw [hred] at hnone
          cases hnone
      · rcases bfsInv_step hg hadjnode inv hce with
          ⟨fresh, D', heq, inv', hfr, hndf⟩
        have hbe : (current == endId) = false := by
          simp [hce]
        have hred : TopicRepository.bfsLoop g start endId (fuel + 1)
            (current :: rest) v =
            TopicRepository.bfsLoop g start endId fuel (rest ++ fresh)
              (v ++ fresh.map (fun w => (w, some current))) := by
          simp only [TopicRepository.bfsLoop, hbe, Bool.false_eq_true,
            if_false]
          rw [heq]
        have hvle : v.length + fresh.length ≤ g.length := by
          have := visited_le_graph inv'
          rw [List.length_append, List.length_map] at this
          exact this
        have hfuel' : (rest ++ fresh).length +
            2 * (g.length -
              (v ++ fresh.map (fun w => (w, some current))).length) <
            fuel := by
          rw [List.length_append, List.length_append, List.length_map]
          simp only [List.length_cons] at hfuel
          omega
        rw [hred]
        exact ih (rest ++ fresh) _ D' inv' hfuel'

/-- The initial BFS state (queue `[start]`, `start` visited with no
predecessor) satisfies the invariant with the constant-zero level map. -/
theorem bfsInv_init {s : Store} {g : Graph} {start endId : String}
    (hstart : Graph.hasNode g start = true) :
    BfsInv s g start endId [start] [(start, none)] (fun _ => 0) := by
  refine ⟨?_, ?_, ?_, ?_, ?_, ?_, ?_, ?_, ?_, ?_⟩
  · simp
  · refine ⟨[], by simp, by simp, ?_⟩
    intro u hu
    cases hu
  · exact List.mem_cons_self _ _
  · rfl
  · intro k p hkp _
    have h := List.mem_singleton.mp hkp
    exact congrArg Prod.fst h
  · intro k p hkp
    have h := List.mem_singleton.mp hkp
    exact Option.noConfusion (congrArg Prod.snd h)
  · intro k hk
    rw [TopicRepository.vHas] at hk
    simp at hk
    rw [← hk]
    exact hstart
  · simp
  · intro w _ u _
    simp
  · intro k _
    simp

/-- Every neighbor in the built graph is itself a node of the graph. -/
theorem adjnode_buildGraph (s : Store) :
    ∀ a b, b ∈ Graph.adj (TopicRepository.buildGraph s) a →
      Graph.hasNode (TopicRepository.buildGraph s) b = true := by
  intro a b h
  have he := (adj_buildGraph s a b).mp h
  rw [hasNode_buildGraph]
  rcases he with ⟨t, ht, ⟨_, hp⟩ | ⟨hid, _⟩⟩
  · exact Or.inr ⟨t, ht, hp⟩
  · exact Or.inl ⟨t, ht, hid⟩

/-- `findShortestPath` over the built graph: a `some` result is a
minimal-length walk through graph nodes, a `none` result means the
endpoints are not connected. -/
theorem findShortestPath_spec {s : Store} {g : Graph} {start endId : String}
    (hg : ∀ a b, b ∈ Graph.adj g a ↔ Edge s a b)
    (hadjnode : ∀ a b, b ∈ Graph.adj g a → Graph.hasNode g b = true)
    (hstart : Graph.hasNode g start = true) :
    (∀ ids, TopicRepository.findShortestPath g start endId = some ids →
        IsWalk s start endId ids ∧
        (∀ l, IsWalk s start endId l → ids.length ≤ l.length) ∧
        (∀ k ∈ ids, Graph.hasNode g k = true)) ∧
      (TopicRepository.findShortestPath g start endId = none →
        ¬Connected s start endId) := by
  have hfuel : ([start] : List String).length +
      2 * (g.length - ([(start, none)] : TopicRepository.Visited).length) <
      2 * g.length + 2 := by
    show 1 + 2 * (g.length - 1) < 2 * g.length + 2
    omega
  have h := @bfsLoop_spec s g start endId hg hadjnode (2 * g.length + 2)
    [start] [(start, none)] (fun _ => 0)
    (@bfsInv_init s g start endId hstart) hfuel
  rw [TopicRepository.findShortestPath]
  exact h

/-- Converting an id path back to topics: when every id on the path has a
stored topic, the per-id lookup keeps every entry and the resulting topics
carry exactly the path's ids. -/
theorem filterMap_find_ids {s : Store} :
    ∀ ids : List String, (∀ k ∈ ids, ∃ t ∈ s, t.id = k) →
      (ids.filterMap (fun id => s.find? (fun t => t.id == id))).map Topic.id
        = ids := by
  intro ids
  induction ids with
  | nil => intro _; rfl
  | cons k ks ih =>
    intro h
    have hex : ∃ t, s.find? (fun t => t.id == k) = some t := by
      rcases h k (List.mem_cons_self _ _) with ⟨t, ht, hid⟩
      cases hf : s.find? (fun t => t.id == k) with
      | some t' => exact ⟨t', rfl⟩
      | none =>
        rw [List.find?_eq_none] at hf
        have := hf t ht
        rw [hid] at this
        simp at this
    rcases hex with ⟨t, hf⟩
    have hid : t.id = k := by simpa using List.find?_some hf
    simp only [List.filterMap_cons, hf, List.map_cons, hid]
    rw [ih (fun x hx => h x (List.mem_cons_of_mem _ hx))]

/-- Members of the converted path are stored topics. -/
theorem mem_filterMap_find {s : Store} {ids : List String} {x : Topic}
    (h : x ∈ ids.filterMap (fun id => s.find? (fun t => t.id == id))) :
    x ∈ s := by
  rcases List.mem_filterMap.mp h with ⟨k, _, hf⟩
  exact List.mem_of_find?_eq_some hf

/-- C5: over a well-formed store (distinct ids, resolving parent
references), `findPath` returns `none` when either endpoint id is absent;
for present endpoints it returns `none` exactly when no chain of
parent/child edges (treated as undirected) connects the two ids, and a
returned path starts at the start topic, ends at the end topic, its ids
form a connecting walk, and no connecting walk is shorter (breadth-first
minimality); in particular `findPath A A` returns the singleton path at
`A`'s topic. -/
theorem claim_c5_findpath {s : Store} (hn : idsNodup s)
    (hpe : parentsExist s = true) :
    ∀ startId endId : String,
      ((JsonDatabase.findById s startId = none ∨
          JsonDatabase.findById s endId = none) →
        TopicRepository.findPath s startId endId = none) ∧
      (∀ ta tb, JsonDatabase.findById s startId = some ta →
        JsonDatabase.findById s endId = some tb →
        (TopicRepository.findPath s startId endId = none ↔
          ¬Connected s startId endId) ∧
        (∀ p, TopicRepository.findPath s startId endId = some p →
          p.head? = some ta ∧ p.getLast? = some tb ∧
          IsWalk s startId endId (p.map Topic.id) ∧
          ∀ l, IsWalk s startId endId l → p.length ≤ l.length)) ∧
      (∀ ta, JsonDatabase.findById s startId = some ta →
        TopicRepository.findPath s startId startId = some [ta]) := by
  have habs : ∀ a b : String,
      (JsonDatabase.findById s a = none ∨
        JsonDatabase.findById s b = none) →
      TopicRepository.findPath s a b = none := by
    intro a b h
    rcases h with h | h
    · rw [TopicRepository.findPath, h]
    · rw [TopicRepository.findPath, h]
      cases hs : JsonDatabase.findById s a <;> rfl
  have hmain : ∀ a b : String, ∀ ta tb,
      JsonDatabase.findById s a = some ta →
      JsonDatabase.findById s b = some tb →
      (TopicRepository.findPath s a b = none ↔ ¬Connected s a b) ∧
      (∀ p, TopicRepository.findPath s a b = some p →
        p.head? = some ta ∧ p.getLast? = some tb ∧
        IsWalk s a b (p.map Topic.id) ∧
        ∀ l, IsWalk s a b l → p.length ≤ l.length) := by
    intro a b ta tb hta htb
    rcases find?_eq_some_mem hta with ⟨htam, htaid⟩
    rcases find?_eq_some_mem htb with ⟨htbm, htbid⟩
    have htaid' : ta.id = a := by simpa using htaid
    have htbid' : tb.id = b := by simpa using htbid
    have hg := adj_buildGraph s
    have hadjnode := adjnode_buildGraph s
    have hstart : Graph.hasNode (TopicRepository.buildGraph s) a = true :=
      (hasNode_buildGraph s a).mpr (Or.inl ⟨ta, htam, htaid'⟩)
    have hspec := @findShortestPath_spec s (TopicRepository.buildGraph s)
      a b hg hadjnode hstart
    have hfp : TopicRepository.findPath s a b =
        match TopicRepository.findShortestPath
            (TopicRepository.buildGraph s) a b with
        | none => none
        | some path =>
          some (path.filterMap (fun id => s.find? (fun t => t.id == id))) := by
      rw [TopicRepository.findPath, hta, htb]
    constructor
    · constructor
      · intro hnone
        rw [hfp] at hnone
        cases hsp : TopicRepository.findShortestPath
            (TopicRepository.buildGraph s) a b with
        | none => exact hspec.2 hsp
        | some ids =>
          rw [hsp] at hnone
          cases hnone
      · intro hnc
        rw [hfp]
        cases hsp : TopicRepository.findShortestPath
            (TopicRepository.buildGraph s) a b with
        | none => rfl
        | some ids => exact absurd ⟨ids, (hspec.1 ids hsp).1⟩ hnc
    · intro p hp
      rw [hfp] at hp
      cases hsp : TopicRepository.findShortestPath
          (TopicRepository.buildGraph s) a b with
      | none =>
        rw [hsp] at hp
        cases hp
      | some ids =>
        rw [hsp] at hp
        have hpeq : ids.filterMap (fun id => s.find? (fun t => t.id == id))
            = p := Option.some.inj hp
        rcases hspec.1 ids hsp with ⟨hwalk, hmin, hnodes⟩
        have hid : ∀ k ∈ ids, ∃ t ∈ s, t.id = k := by
          intro k hk
          exact (hasNode_buildGraph_wf s hpe k).mp (hnodes k hk)
        have hmap : p.map Topic.id = ids := by
          rw [← hpeq]
          exact filterMap_find_ids ids hid
        have hplen : p.length = ids.length := by
          rw [← hmap, List.length_map]
        refine ⟨?_, ?_, ?_, ?_⟩
        · have h1 : (p.map Topic.id).head? = some a := by
            rw [hmap]
            exact hwalk.2.1
          rw [List.head?_map] at h1
          cases hph : p.head? with
          | none =>
            rw [hph] at h1
            cases h1
          | some t0 =>
            rw [hph] at h1
            have ht0id : t0.id = a := by simpa using h1
            have ht0mem : t0 ∈ p := List.mem_of_mem_head? hph
            have ht0s : t0 ∈ s := by
              rw [← hpeq] at ht0mem
              exact mem_filterMap_find ht0mem
            have ht0ta : t0 = ta := id_inj hn ht0s htam (by rw [ht0id, htaid'])
            rw [ht0ta]
        · have h1 : (p.map Topic.id).getLast? = some b := by
            rw [hmap]
            exact hwalk.2.2
          rw [List.getLast?_map] at h1
          cases hpl : p.getLast? with
          | none =>
            rw [hpl] at h1
            cases h1
          | some t0 =>
            rw [hpl] at h1
            have ht0id : t0.id = b := by simpa using h1
            have ht0mem : t0 ∈ p := List.mem_of_mem_getLast? hpl
            have ht0s : t0 ∈ s := by
              rw [← hpeq] at ht0mem
              exact mem_filterMap_find ht0mem
            have ht0tb : t0 = tb := id_inj hn ht0s htbm (by rw [ht0id, htbid'])
            rw [ht0tb]
        · rw [hmap]
          exact hwalk
        · intro l hl
          have := hmin l hl
          omega
  intro startId endId
  refine ⟨habs startId endId, hmain startId endId, ?_⟩
  intro ta hta
  rcases hmain startId startId ta ta hta hta with ⟨hiff, hsome⟩
  have hconn : Connected s startId startId := by
    refine ⟨[startId], by simp, rfl, rfl⟩
  cases hp : TopicRepository.findPath s startId startId with
  | none => exact absurd hconn (hiff.mp hp)
  | some p =>
    rcases hsome p hp with ⟨hh, _, _, hmin⟩
    have hlen1 : p.length ≤ 1 := by
      have := hmin [startId] ⟨by simp, rfl, rfl⟩
      simpa using this
    cases p with
    | nil => simp at hh
    | cons t0 ps =>
      cases ps with
      | nil =>
        have ht0 : t0 = ta := by simpa using hh
        rw [ht0]
      | cons t1 ps' => simp at hlen1

/-- C5 witness: on a concrete three-record chain, `findPath t1 t1` is the
singleton path at the root topic. -/
theorem claim_c5_witness :
    TopicRepository.findPath [topicT1, topicT2, topicT3] "t1" "t1" =
      some [topicT1] :=
  (claim_c5_findpath (by decide) (by decide) "t1" "t1").2.2 topicT1 (by decide)

/-- C9: for every strategy the facade dispatches on, `getChildTopics`
checks the caller's read permission on the parent topic and raises
`PermissionDenied` — before any children are consulted — when it fails;
when it passes, it returns the direct children filtered by `canReadTopic`.
The facade entry point is the dispatched instance of this body. -/
theorem claim_c9_child_topics_guard (st : AccessStrategy) (s : Store)
    (u : User) (parentId : String) (parent : Topic)
    (hget : TopicService.getTopic s parentId = some parent) :
    (st.canReadTopic u parent = false →
      SecureTopicService.getChildTopicsWith st s u parentId =
        .error .permissionDenied) ∧
    (st.canReadTopic u parent = true →
      SecureTopicService.getChildTopicsWith st s u parentId =
        .ok ((TopicService.getChildTopics s parentId).filter
          (st.canReadTopic u))) ∧
    SecureTopicService.getChildTopics s u parentId =
      SecureTopicService.getChildTopicsWith
        (TopicAccessStrategyFactory.getStrategy u) s u parentId := by
  refine ⟨?_, ?_, rfl⟩ <;> intro h <;>
    simp [SecureTopicService.getChildTopicsWith, hget, h]

/-- C9 witness: on `[topicT1, topicT2]`, the read-only strategy denies a
contributor principal the parent (raising `PermissionDenied`) and grants a
read-only principal the children of `t1`. -/
theorem claim_c9_witness :
    SecureTopicService.getChildTopicsWith ViewerTopicAccessStrategy
      [topicT1, topicT2] editorUser "t1" = .error .permissionDenied ∧
    SecureTopicService.getChildTopicsWith ViewerTopicAccessStrategy
      [topicT1, topicT2] viewerUser "t1" = .ok [topicT2] := by
  have h1 := (claim_c9_child_topics_guard ViewerTopicAccessStrategy
    [topicT1, topicT2] editorUser "t1" topicT1 rfl).1 rfl
  have h2 := (claim_c9_child_topics_guard ViewerTopicAccessStrategy
    [topicT1, topicT2] viewerUser "t1" topicT1 rfl).2.1 rfl
  have he : (TopicService.getChildTopics [topicT1, topicT2] "t1").filter
      (ViewerTopicAccessStrategy.canReadTopic viewerUser) = [topicT2] := by
    decide
  rw [he] at h2
  exact ⟨h1, h2⟩

/-! ## C8 — findPath guards both endpoints, then filters silently -/

/-- C8: for every strategy the facade dispatches on, `findPath` raises
`PermissionDenied` when the principal cannot read either endpoint, and
otherwise returns the engine's path with the topics the principal cannot
read dropped by a plain `filter` — no error for unreadable intermediate
topics, and no connectivity re-validation of the filtered sequence.  The
facade entry point is the dispatched instance of this body. -/
theorem claim_c8_findpath_guard (st : AccessStrategy) (s : Store) (u : User)
    (a b : String) (ta tb : Topic)
    (ha : TopicService.getTopic s a = some ta)
    (hb : TopicService.getTopic s b = some tb) :
    (st.canReadTopic u ta = false ∨ st.canReadTopic u tb = false →
      SecureTopicService.findPathWith st s u a b =
        .error .permissionDenied) ∧
    (st.canReadTopic u ta = true → st.canReadTopic u tb = true →
      SecureTopicService.findPathWith st s u a b =
        .ok ((TopicService.findPath s a b).map
          (List.filter (st.canReadTopic u)))) ∧
    SecureTopicService.findPath s u a b =
      SecureTopicService.findPathWith
        (TopicAccessStrategyFactory.getStrategy u) s u a b := by
  refine ⟨?_, ?_, rfl⟩
  · rintro (h | h) <;> simp [SecureTopicService.findPathWith, ha, hb, h]
  · intro h1 h2
    simp only [SecureTopicService.findPathWith, ha, hb, h1, h2,
      Bool.and_self, if_pos]
    cases TopicService.findPath s a b <;> simp

/-- C8 witness: on `[topicT1, topicT2]`, the read-only strategy denies a
contributor principal an endpoint (raising `PermissionDenied`) and returns
the full engine path `t1 → t2` to a read-only principal. -/
theorem claim_c8_witness :
    SecureTopicService.findPathWith ViewerTopicAccessStrategy
      [topicT1, topicT2] editorUser "t1" "t2" = .error .permissionDenied ∧
    SecureTopicService.findPathWith ViewerTopicAccessStrategy
      [topicT1, topicT2] viewerUser "t1" "t2" =
        .ok (some [topicT1, topicT2]) := by
  have h1 := (claim_c8_findpath_guard ViewerTopicAccessStrategy
    [topicT1, topicT2] editorUser "t1" "t2" topicT1 topicT2 rfl rfl).1
    (Or.inl rfl)
  have h2 := (claim_c8_findpath_guard ViewerTopicAccessStrategy
    [topicT1, topicT2] viewerUser "t1" "t2" topicT1 topicT2 rfl rfl).2.1
    rfl rfl
  have he : (TopicService.findPath [topicT1, topicT2] "t1" "t2").map
      (List.filter (ViewerTopicAccessStrategy.canReadTopic viewerUser)) =
        some [topicT1, topicT2] := by decide
  rw [he] at h2
  exact ⟨h1, h2⟩

/-- C4 witness: a concrete two-version chain under root `t1`, plus the name
rule at a concrete nonempty new name. -/
theorem claim_c4_witness :
    (topicT1.createNewVersion "new content" none 5).version = 2 ∧
    (topicT1.createNewVersion "new content" none 5).rootTopicId = "t1" ∧
    (topicT1.createNewVersion "new content" none 5).previousVersionId =
      some "t1" ∧
    (topicT1.createNewVersion "new content" (some "Renamed") 5).name =
      "Renamed" ∧
    ∃ t, TopicService.getLatestTopicVersion
        [topicT1, topicT1.createNewVersion "new content" none 5] "t1" =
          some t ∧
      t ∈ TopicRepository.findAllVersions
        [topicT1, topicT1.createNewVersion "new content" none 5] "t1" ∧
      ∀ u ∈ TopicRepository.findAllVersions
        [topicT1, topicT1.createNewVersion "new content" none 5] "t1",
        u.version ≤ t.version := by
  refine ⟨(claim_c4_chain_and_latest.1 topicT1 "new content" none 5).1,
    (claim_c4_chain_and_latest.1 topicT1 "new content" none 5).2.1,
    (claim_c4_chain_and_latest.1 topicT1 "new content" none 5).2.2.1,
    (claim_c4_chain_and_latest.1 topicT1 "new content" (some "Renamed")
      5).2.2.2.2.2 "Renamed" (by decide),
    claim_c4_chain_and_latest.2 _ "t1" (by decide)⟩

end PM
